import Mathlib

/-!
Verification development for the `web-screen-stream` session streaming core.

The Python sources are shallowly embedded as pure Lean functions:

* `src/web_screen_stream/h264_extractor.py` — `H264UnitExtractor`
  (byte buffer → NAL units) as functions over `List Nat` byte sequences;
* `src/web_screen_stream/session.py` — the GOP cache update, the
  subscriber delivery loop of `subscribe`, `stop`, and `SessionManager.create`
  as explicit state-passing functions (async effects such as subprocess
  spawning and browser navigation become oracle parameters that pick the
  outcome of the corresponding `await`);
* `src/web_screen_stream/xvfb.py` — `XvfbManager.allocate` /
  `_cleanup_stale_lock` over an explicit model of the lock/socket files.

Bytes are modelled as `Nat` (the code never computes with byte values
beyond equality tests and the low-5-bit mask, so no `% 256` is needed).
-/

/-! ## H264UnitExtractor: the start-code scanner of `push` (lines 110-123)

The Python loop walks an index `i` while `i < n - 3`; at `i` it recognises a
3-byte start code `00 00 01` (then `i += 3`) or — if additionally `i < n - 4`
— a 4-byte start code `00 00 00 01` (then `i += 4`), otherwise `i += 1`.
The loop bound `i < n - 3` says: at least 4 bytes remain from `i`; the inner
bound `i < n - 4` says: at least 5 bytes remain.  The structural version
below walks the remaining suffix and encodes those bounds as pattern arity
(4 cells matched, resp. `rest ≠ []`); positions are carried in `i`. -/
def scanAux : List Nat → Nat → List Nat
  | b0 :: b1 :: b2 :: b3 :: rest, i =>
    if b0 = 0 ∧ b1 = 0 ∧ b2 = 1 then
      i :: scanAux (b3 :: rest) (i + 3)
    else if b0 = 0 ∧ b1 = 0 ∧ b2 = 0 ∧ b3 = 1 ∧ rest ≠ [] then
      i :: scanAux rest (i + 4)
    else
      scanAux (b1 :: b2 :: b3 :: rest) (i + 1)
  | _, _ => []

/-- All start-code offsets of a buffer, as collected by `push` (line 111). -/
def scanStarts (buf : List Nat) : List Nat := scanAux buf 0

/-- 3-byte → 4-byte start-code normalisation, as written identically in
`push` (lines 138-139) and `flush` (lines 162-163):
`if nal[:3] == b"\x00\x00\x01" and nal[3:4] != b"\x00": nal = b"\x00\x00\x00\x01" + nal[3:]`. -/
def normalizeUnit (nal : List Nat) : List Nat :=
  if nal.take 3 = [0, 0, 1] ∧ (nal.drop 3).take 1 ≠ [0] then
    [0, 0, 0, 1] ++ nal.drop 3
  else
    nal

/-- The body of `H264UnitExtractor.push` after the chunk has been appended
to the buffer (lines 105-147).  Returns (emitted units, retained buffer).
`push` recurses (`return self.push(b"")`) after discarding bytes that
precede the first start code; the recursion is on a strictly shorter
buffer. -/
def pushCore (maxNal : Nat) (buf : List Nat) : List (List Nat) × List Nat :=
  if h4 : buf.length < 4 then ([], buf)
  else
    if h2 : (scanStarts buf).length < 2 then ([], buf)
    else
      if h0 : (scanStarts buf).headD 0 ≠ 0 then
        pushCore maxNal (buf.drop ((scanStarts buf).headD 0))
      else
        let starts := scanStarts buf
        let out := (starts.zip starts.tail).filterMap fun ab =>
          let nal := normalizeUnit ((buf.drop ab.1).take (ab.2 - ab.1))
          if nal.length ≤ maxNal then some nal else none
        (out, buf.drop (starts.getLastD 0))
termination_by buf.length
decreasing_by
  simp only [List.length_drop]
  omega

/-- State of `H264UnitExtractor`: the retained buffer plus the two caps
(`max_buffer_bytes`, default `512 * 1024`; `max_nal_bytes`, default
`4 * 1024 * 1024`). -/
structure H264UnitExtractor where
  buf : List Nat
  maxBuffer : Nat
  maxNal : Nat

deriving DecidableEq

/-- A fresh extractor with the default caps (`__init__`, lines 32-40). -/
def H264UnitExtractor.init : H264UnitExtractor :=
  { buf := [], maxBuffer := 512 * 1024, maxNal := 4 * 1024 * 1024 }

/-- `H264UnitExtractor.push` (lines 89-147): append the chunk, trim the
oldest bytes if the soft cap is exceeded, then extract complete units. -/
def H264UnitExtractor.push (e : H264UnitExtractor) (data : List Nat) :
    H264UnitExtractor × List (List Nat) :=
  let buf :=
    if data = [] then e.buf
    else
      let b := e.buf ++ data
      if e.maxBuffer < b.length then b.drop (b.length - e.maxBuffer) else b
  let r := pushCore e.maxNal buf
  ({ e with buf := r.2 }, r.1)

/-- `H264UnitExtractor.flush` (lines 149-167): emit the retained tail iff it
is at least 5 bytes long and (after normalisation) begins with the 4-byte
start code; always clear the buffer. -/
def H264UnitExtractor.flush (e : H264UnitExtractor) :
    H264UnitExtractor × List (List Nat) :=
  if e.buf.length < 5 then ({ e with buf := [] }, [])
  else
    let nal := normalizeUnit e.buf
    if nal.take 4 = [0, 0, 0, 1] then ({ e with buf := [] }, [nal])
    else ({ e with buf := [] }, [])

/-- Feed a list of chunks to an extractor in order, concatenating the
emitted units (one `push` call per chunk). -/
def processChunks (e : H264UnitExtractor) :
    List (List Nat) → H264UnitExtractor × List (List Nat)
  | [] => (e, [])
  | c :: cs =>
    let r := e.push c
    let r2 := processChunks r.1 cs
    (r2.1, r.2 ++ r2.2)

/-- Everything a fresh extractor emits for a chunking: all `push` outputs in
order followed by the final `flush` output. -/
def runAll (chunks : List (List Nat)) : List (List Nat) :=
  let r := processChunks H264UnitExtractor.init chunks
  r.2 ++ r.1.flush.2

/-! ### Single-scan characterisation of the extractor

`emitUnits`, `tailBuf`, `flushOut` describe what one scan of the whole
input produces; `codeUnits` is the closed form that `runAll` is proved
equal to. -/

/-- The unit produced (or dropped, when oversize) for one pair of adjacent
start-code offsets, as in `push` lines 135-143. -/
def unitF (maxNal : Nat) (buf : List Nat) (ab : Nat × Nat) : Option (List Nat) :=
  let nal := normalizeUnit ((buf.drop ab.1).take (ab.2 - ab.1))
  if nal.length ≤ maxNal then some nal else none

/-- Units emitted between consecutive start codes of `buf`, normalised and
filtered by the hard per-unit cap (as in `push`, lines 133-143). -/
def emitUnits (maxNal : Nat) (buf : List Nat) : List (List Nat) :=
  ((scanStarts buf).zip (scanStarts buf).tail).filterMap (unitF maxNal buf)

/-- The buffer retained after scanning `buf`: everything from the last
start code on when at least two start codes were found, otherwise `buf`
itself. -/
def tailBuf (buf : List Nat) : List Nat :=
  if (scanStarts buf).length < 2 then buf else buf.drop ((scanStarts buf).getLastD 0)

/-- What `flush` emits for a given retained buffer. -/
def flushOut (buf : List Nat) : List (List Nat) :=
  if buf.length < 5 then []
  else if (normalizeUnit buf).take 4 = [0, 0, 0, 1] then [normalizeUnit buf] else []

/-- Closed form of the extractor's total output on input `S` (any chunking
below the soft cap): the in-between units plus the flushed tail. -/
def codeUnits (S : List Nat) : List (List Nat) :=
  emitUnits (4 * 1024 * 1024) S ++ flushOut (tailBuf S)

/-! ### Spec-side framing definitions (for the framing-law claim)

These two definitions follow the words of the specification, *not* the
code: §4.1 step 2 ("A start code is `00 00 01` (3-byte) or `00 00 00 01`
(4-byte); when both forms match at the same offset, treat it as 4-byte")
and step 4 ("If its start code is 3-byte, rewrite the leading 3 bytes to
`00 00 00 01`").  They are compared with the code-side definitions. -/

/-- Start-code offsets per the spec: a start code only has to fit inside
`S` (no byte needs to follow it), and `00 00 00 01` takes precedence. -/
def specScan : List Nat → Nat → List Nat
  | 0 :: 0 :: 0 :: 1 :: rest, i => i :: specScan rest (i + 4)
  | 0 :: 0 :: 1 :: rest, i => i :: specScan rest (i + 3)
  | _ :: rest, i => specScan rest (i + 1)
  | [], _ => []

/-- Spec-side normalisation: a 3-byte start code is always rewritten to the
4-byte form. -/
def specNormalize (nal : List Nat) : List Nat :=
  if nal.take 3 = [0, 0, 1] then [0, 0, 0, 1] ++ nal.drop 3 else nal

/-- The units the framing law promises: `[p_0,p_1), …, [p_{k-1}, |S|)`,
each normalised, oversize units dropped, bytes before `p_0` dropped. -/
def claimedUnits (S : List Nat) : List (List Nat) :=
  let ps := specScan S 0
  ((ps.zip (ps.tail ++ [S.length])).map fun ab =>
      specNormalize ((S.drop ab.1).take (ab.2 - ab.1))).filter
    fun nal => nal.length ≤ 4 * 1024 * 1024

/-! ## BrowserStreamSession (session.py): GOP cache and subscriber delivery

The sentinel `_SENTINEL = b""` becomes `[]`.  `asyncio` effects are modelled
by explicit state passing; during one delivery loop the session fields
`_last_sps`/`_last_pps` are taken as parameters (their value at the single
point the loop reads them, which under the cooperative scheduler is the
value current when the first live IDR is dequeued). -/

/-- `H264UnitExtractor.nal_type` (lines 42-55): `nal[3] & 0x1F` after a
3-byte start code, else `nal[4] & 0x1F`.  Python would raise `IndexError`
on a too-short unit; out-of-range reads are modelled by `getD _ 0`. -/
def nalType (nal : List Nat) : Nat :=
  if nal.getD 2 0 = 1 then nal.getD 3 0 % 32 else nal.getD 4 0 % 32

def MAX_GOP_BYTES : Nat := 4 * 1024 * 1024

/-- The GOP-cache fields of `BrowserStreamSession.__init__` (lines 61-66). -/
structure GopState where
  last_sps : List Nat := []
  last_pps : List Nat := []
  gop_nals : List (List Nat) := []
  gop_bytes : Nat := 0
  gop_has_idr : Bool := false

deriving DecidableEq

/-- `BrowserStreamSession._update_gop_cache` (lines 228-278).  Python's
truthiness test `if self._last_sps:` is nonemptiness. -/
def updateGopCache (s : GopState) (nal : List Nat) : GopState :=
  if nalType nal = 7 then { s with last_sps := nal }
  else if nalType nal = 8 then { s with last_pps := nal }
  else if nalType nal = 5 then
    let g1 : List (List Nat) := if s.last_sps ≠ [] then [s.last_sps] else []
    let g2 : List (List Nat) := if s.last_pps ≠ [] then g1 ++ [s.last_pps] else g1
    { s with
      gop_nals := g2 ++ [nal],
      gop_bytes := (if s.last_sps ≠ [] then s.last_sps.length else 0) +
        (if s.last_pps ≠ [] then s.last_pps.length else 0) + nal.length,
      gop_has_idr := true }
  else if nalType nal = 1 then
    if s.gop_has_idr then
      if MAX_GOP_BYTES < s.gop_bytes + nal.length then
        { s with gop_nals := [], gop_bytes := 0, gop_has_idr := false }
      else
        { s with
          gop_nals := s.gop_nals ++ [nal],
          gop_bytes := s.gop_bytes + nal.length }
    else s
  else s

/-- The GOP state after the broadcast loop has applied `_update_gop_cache`
to a sequence of units, starting from a fresh session. -/
def foldGop (us : List (List Nat)) : GopState := us.foldl updateGopCache {}

/-- The delivery loop of `BrowserStreamSession.subscribe` (lines 188-217):
dequeue items one by one; stop at the sentinel; once an IDR has been seen
forward verbatim; before that forward one SPS and one PPS, inject
`last_sps`/`last_pps` ahead of the first IDR, and drop everything else. -/
def deliverLoop (last_sps last_pps : List Nat) :
    Bool → Bool → Bool → List (List Nat) → List (List Nat)
  | _, _, _, [] => []
  | gotIdr, sentSps, sentPps, nal :: rest =>
    if nal = [] then []
    else if gotIdr then
      nal :: deliverLoop last_sps last_pps gotIdr sentSps sentPps rest
    else if nalType nal = 7 then
      if sentSps = false then
        nal :: deliverLoop last_sps last_pps gotIdr true sentPps rest
      else deliverLoop last_sps last_pps gotIdr sentSps sentPps rest
    else if nalType nal = 8 then
      if sentPps = false then
        nal :: deliverLoop last_sps last_pps gotIdr sentSps true rest
      else deliverLoop last_sps last_pps gotIdr sentSps sentPps rest
    else if nalType nal = 5 then
      (if sentSps = false ∧ last_sps ≠ [] then [last_sps] else []) ++
      (if sentPps = false ∧ last_pps ≠ [] then [last_pps] else []) ++
      nal :: deliverLoop last_sps last_pps true
        (if sentSps = false ∧ last_sps ≠ [] then true else sentSps)
        (if sentPps = false ∧ last_pps ≠ [] then true else sentPps) rest
    else deliverLoop last_sps last_pps gotIdr sentSps sentPps rest

/-- `BrowserStreamSession.subscribe` (lines 160-217) for one subscriber:
under the lock the GOP snapshot (empty unless `gop_has_idr`) is pre-queued
and `got_idr = sent_sps = sent_pps = has_idr`; afterwards the loop consumes
the snapshot followed by whatever the broadcast loop later enqueues
(`live`). -/
def subscribeYields (s : GopState) (live : List (List Nat)) : List (List Nat) :=
  deliverLoop s.last_sps s.last_pps s.gop_has_idr s.gop_has_idr s.gop_has_idr
    ((if s.gop_has_idr then s.gop_nals else []) ++ live)

/-! ## `BrowserStreamSession.stop` (lines 118-147) -/

/-- A subscriber's `asyncio.Queue`. -/
structure SubQueue where
  maxsize : Nat
  items : List (List Nat)

deriving DecidableEq

/-- `queue.put_nowait(x)` with `except QueueFull: pass` around it: a
bounded, full queue is left unchanged. -/
def putNowaitOrDrop (q : SubQueue) (x : List Nat) : SubQueue :=
  if 0 < q.maxsize ∧ q.maxsize ≤ q.items.length then q
  else { q with items := q.items ++ [x] }

/-- The state `stop` touches: `_status` and `_subscribers`. -/
structure SessionCtl where
  status : String
  subscribers : List SubQueue

deriving DecidableEq

/-- `stop`: early return from "stopped"/"stopping"; otherwise FFmpeg and the
broadcast task are shut down (no effect on these fields), the sentinel is
`put_nowait` into every subscribed queue (dropped if full), the subscriber
list is cleared and the status becomes "stopped".  The second component is
the final contents of the queues that were subscribed at call time. -/
def stopModel (s : SessionCtl) : SessionCtl × List SubQueue :=
  if s.status = "stopped" ∨ s.status = "stopping" then (s, s.subscribers)
  else
    ({ status := "stopped", subscribers := [] },
      s.subscribers.map fun q => putNowaitOrDrop q [])

/-! ## XvfbManager (xvfb.py) -/

/-- Outcome of `os.kill(pid, 0)` in `_cleanup_stale_lock`. -/
inductive KillRes
  | ok
  | noProc
  | permDenied

deriving DecidableEq

/-- The lock and socket files of the chosen display number, plus what
reading the lock file yields (`none` = unparsable PID, a `ValueError`). -/
structure LockWorld where
  lockExists : Bool
  lockPid : Option Nat
  socketExists : Bool
  alive : KillRes

deriving DecidableEq

/-- `XvfbManager._cleanup_stale_lock` (lines 280-314): no lock file — do
nothing; readable PID that is alive — log and keep both files; otherwise
(`ProcessLookupError`, `ValueError`, `PermissionError`) delete the lock and
the socket. -/
def cleanupStaleLock (w : LockWorld) : LockWorld :=
  if w.lockExists = false then w
  else
    match w.lockPid, w.alive with
    | some _, KillRes.ok => w
    | _, _ => { w with lockExists := false, socketExists := false }

/-- The displays table of `XvfbManager`. -/
structure PoolModel where
  base : Nat := 100
  maxDisplays : Nat := 5
  displays : List Nat := []

deriving DecidableEq

/-- `XvfbManager._next_display_num` (lines 265-278): smallest number in
`[base, base+max)` not in use. -/
def nextDisplayNum (p : PoolModel) : Option Nat :=
  (((List.range p.maxDisplays).map (· + p.base)).find? fun n =>
    !(p.displays.contains n))

structure AllocResult where
  pool : PoolModel
  worldAtSpawn : LockWorld
  world : LockWorld
  spawned : Bool
  display : Option Nat

deriving DecidableEq

/-- `XvfbManager.allocate` (lines 120-212), with the readiness poll's
outcome given by the oracle `xvfbStarts`.  `worldAtSpawn` is the file state
right when `Xvfb` is spawned (step 2); `spawned` records whether a display
server process was started at all; `display = none` means the call raised
`RuntimeError`.  On poll timeout the server is killed and the lock cleaned
again before raising. -/
def xvfbAllocate (p : PoolModel) (w : LockWorld) (xvfbStarts : Bool) :
    AllocResult :=
  if p.maxDisplays ≤ p.displays.length then ⟨p, w, w, false, none⟩
  else
    match nextDisplayNum p with
    | none => ⟨p, w, w, false, none⟩
    | some n =>
      let w1 := cleanupStaleLock w
      if xvfbStarts then
        ⟨{ p with displays := p.displays ++ [n] }, w1, w1, true, some n⟩
      else
        ⟨p, w1, cleanupStaleLock w1, true, none⟩

/-- `XvfbManager.release` on the pool table (lines 220-224): pop the entry;
process shutdown and lock cleanup do not touch the table. -/
def poolRelease (p : PoolModel) (n : Nat) : PoolModel :=
  { p with displays := p.displays.erase n }

/-! ## SessionManager.create (session.py lines 319-412) -/

/-- Result of `_launch_browser`: Playwright missing (no-op), success, a
launch error, or a navigation error (both of the latter raise). -/
inductive BrowserRes
  | missing
  | ok
  | launchFail
  | navFail

deriving DecidableEq

inductive CreateErr
  | alreadyExists
  | allocFail
  | browserFail
  | startFail

deriving DecidableEq

deriving instance DecidableEq for Except

/-- The three manager maps plus the optional display pool; sessions and
browsers are tracked by key only. -/
structure MgrState where
  sessions : List String := []
  browsers : List String := []
  displays : List (String × Nat) := []
  pool : Option PoolModel := none

deriving DecidableEq

def poolCount (st : MgrState) : Nat :=
  match st.pool with
  | some p => p.displays.length
  | none => 0

/-- The pool after the rollback's `release` call: the display goes back
when one had been allocated and a pool is attached. -/
def rollbackPool : Option PoolModel → Option Nat → Option PoolModel
  | some p, some n => some (poolRelease p n)
  | p, _ => p

/-- The `except` block of `create` (lines 388-412): close browser handles
(no map effect), pop the browsers entry, release the display if one was
allocated. -/
def mgrRollback (st : MgrState) (sid : String) (disp : Option Nat) : MgrState :=
  { st with
    browsers := st.browsers.erase sid,
    pool := rollbackPool st.pool disp }

/-- Phases 2 and 3 of `create` (lines 370-412): browser launch (`browsers`
set on success), session construction and `start` (oracle `startOk`),
insertion into `sessions` and `displays`; on failure the rollback runs. -/
def createPhases (st : MgrState) (sid : String) (disp : Option Nat)
    (urlGiven : Bool) (br : BrowserRes) (startOk : Bool) :
    Except CreateErr Unit × MgrState :=
  if urlGiven ∧ (br = BrowserRes.launchFail ∨ br = BrowserRes.navFail) then
    (Except.error CreateErr.browserFail, mgrRollback st sid disp)
  else
    let st2 :=
      if urlGiven ∧ br = BrowserRes.ok then
        { st with browsers := st.browsers ++ [sid] }
      else st
    if startOk then
      (Except.ok (),
        { st2 with
          sessions := sid :: st2.sessions,
          displays :=
            match disp with
            | some n => (sid, n) :: st2.displays
            | none => st2.displays })
    else (Except.error CreateErr.startFail, mgrRollback st2 sid disp)

/-- `SessionManager.create` (lines 319-412): duplicate check, Phase 1
display allocation when a pool is attached, then browser and session
phases.  Oracles: `xvfbStarts` (readiness poll), `urlGiven`, `br`
(browser launch outcome), `startOk` (FFmpeg start). -/
def managerCreate (st : MgrState) (sid : String) (w : LockWorld)
    (xvfbStarts : Bool) (urlGiven : Bool) (br : BrowserRes) (startOk : Bool) :
    Except CreateErr Unit × MgrState :=
  if st.sessions.contains sid then (Except.error CreateErr.alreadyExists, st)
  else
    match st.pool with
    | some p =>
      let ar := xvfbAllocate p w xvfbStarts
      match ar.display with
      | none =>
        (Except.error CreateErr.allocFail,
          mgrRollback { st with pool := some ar.pool } sid none)
      | some n =>
        createPhases { st with pool := some ar.pool } sid (some n) urlGiven br startOk
    | none => createPhases st sid none urlGiven br startOk

/-- `[l]` when `l` is nonempty, else nothing — the conditional append used
by the IDR branch of `_update_gop_cache`. -/
def optNal (l : List Nat) : List (List Nat) := if l ≠ [] then [l] else []

/-- "`g` is the GOP opened by the IDR at position `i` of the history": the
SPS/PPS that were current when that IDR was processed (if any), the IDR
itself, and then only non-IDR slices. -/
def GopTraceAt (us : List (List Nat)) (g : List (List Nat)) : Prop :=
  ∃ i, ∃ hi : i < us.length, nalType us[i] = 5 ∧
    ∃ rest, g = optNal (foldGop (us.take i)).last_sps ++
        optNal (foldGop (us.take i)).last_pps ++ us[i] :: rest ∧
      ∀ v ∈ rest, nalType v = 1

/-! ## Helpers for the per-claim theorems -/

/-- A broadcast history in which every IDR is preceded (within the history)
by at least one SPS and one PPS — the decodability premise under which the
delivery claims hold. -/
def decodableHistory (us : List (List Nat)) : Bool :=
  (List.range us.length).all fun i =>
    if nalType (us.getD i []) = 5 then
      ((us.take i).any fun u => nalType u = 7) &&
        ((us.take i).any fun u => nalType u = 8)
    else true

/-! ## Lemmas about the start-code scanner -/

theorem getLastD_of_ne_nil {l : List Nat} (h : l ≠ []) (d d' : Nat) :
    l.getLastD d = l.getLastD d' := by
  match l with
  | [] => exact absurd rfl h
  | [a] => rfl
  | a :: b :: t => simp [List.getLastD]

theorem getLastD_mem {l : List Nat} (h : l ≠ []) (d : Nat) : l.getLastD d ∈ l := by
  induction l generalizing d with
  | nil => exact absurd rfl h
  | cons a t ih =>
    match t with
    | [] => simp [List.getLastD]
    | b :: t2 => simp [List.getLastD]

theorem scanAux_short {s : List Nat} (i : Nat) (h : s.length < 4) : scanAux s i = [] := by
  match s with
  | [] => rfl
  | [a] => rfl
  | [a, b] => rfl
  | [a, b, c] => rfl
  | a :: b :: c :: d :: t => simp at h; omega

theorem scanAux_shift (s : List Nat) (i : Nat) :
    ∀ j, scanAux s (j + i) = (scanAux s i).map (· + j) := by
  induction s, i using scanAux.induct with
  | case1 b0 b1 b2 b3 rest i h ih =>
    intro j
    have h3 : j + i + 3 = j + (i + 3) := by omega
    simp only [scanAux, if_pos h, h3, ih, List.map_cons]
    simp [Nat.add_comm]
  | case2 b0 b1 b2 b3 rest i h1 h ih =>
    intro j
    have h4 : j + i + 4 = j + (i + 4) := by omega
    simp only [scanAux, if_neg h1, if_pos h, h4, ih, List.map_cons]
    simp [Nat.add_comm]
  | case3 b0 b1 b2 b3 rest i h1 h2 ih =>
    intro j
    have h5 : j + i + 1 = j + (i + 1) := by omega
    simp only [scanAux, if_neg h1, if_neg h2, h5, ih]
  | case4 t x h =>
    intro j
    match t with
    | [] => rfl
    | [a] => rfl
    | [a, b] => rfl
    | [a, b, c] => rfl
    | a :: b :: c :: d :: r => exact absurd rfl (h a b c d r)

theorem scanAux_ge (s : List Nat) (i : Nat) : ∀ p, p ∈ scanAux s i → i ≤ p := by
  induction s, i using scanAux.induct with
  | case1 b0 b1 b2 b3 rest i h ih =>
    intro p hp
    simp only [scanAux, if_pos h, List.mem_cons] at hp
    rcases hp with rfl | hp
    · exact le_refl p
    · exact le_trans (by omega) (ih p hp)
  | case2 b0 b1 b2 b3 rest i h1 h ih =>
    intro p hp
    simp only [scanAux, if_neg h1, if_pos h, List.mem_cons] at hp
    rcases hp with rfl | hp
    · exact le_refl p
    · exact le_trans (by omega) (ih p hp)
  | case3 b0 b1 b2 b3 rest i h1 h2 ih =>
    intro p hp
    simp only [scanAux, if_neg h1, if_neg h2] at hp
    exact le_trans (by omega) (ih p hp)
  | case4 t x h =>
    intro p hp
    have ht : scanAux t x = [] := by
      match t with
      | [] => rfl
      | [a] => rfl
      | [a, b] => rfl
      | [a, b, c] => rfl
      | a :: b :: c :: d :: r => exact absurd rfl (h a b c d r)
    rw [ht] at hp
    exact absurd hp (List.not_mem_nil p)

theorem scanAux_atom {t : List Nat} (x : Nat)
    (h : ∀ (b0 b1 b2 b3 : Nat) (rest : List Nat), t = b0 :: b1 :: b2 :: b3 :: rest → False) :
    scanAux t x = [] := by
  match t with
  | [] => rfl
  | [a] => rfl
  | [a, b] => rfl
  | [a, b, c] => rfl
  | a :: b :: c :: d :: r => exact absurd rfl (h a b c d r)

theorem scanAux_pattern (s : List Nat) (i : Nat) : ∀ p, p ∈ scanAux s i →
    ((s.drop (p - i)).take 3 = [0, 0, 1] ∧ 4 ≤ (s.drop (p - i)).length) ∨
    ((s.drop (p - i)).take 4 = [0, 0, 0, 1] ∧ 5 ≤ (s.drop (p - i)).length) := by
  induction s, i using scanAux.induct with
  | case1 b0 b1 b2 b3 rest i h ih =>
    intro p hp
    simp only [scanAux, if_pos h, List.mem_cons] at hp
    rcases hp with rfl | hp
    · left
      obtain ⟨rfl, rfl, rfl⟩ := h
      simp [Nat.sub_self]
    · have hge : i + 3 ≤ p := scanAux_ge _ _ p hp
      have key : (b0 :: b1 :: b2 :: b3 :: rest).drop (p - i) =
          (b3 :: rest).drop (p - (i + 3)) := by
        have h3 : (b3 :: rest) = (b0 :: b1 :: b2 :: b3 :: rest).drop 3 := rfl
        rw [h3, List.drop_drop]
        congr 1
        omega
      rw [key]
      exact ih p hp
  | case2 b0 b1 b2 b3 rest i h1 h ih =>
    intro p hp
    simp only [scanAux, if_neg h1, if_pos h, List.mem_cons] at hp
    rcases hp with rfl | hp
    · right
      obtain ⟨rfl, rfl, rfl, rfl, hne⟩ := h
      have := List.length_pos.mpr hne
      simp [Nat.sub_self]
      omega
    · have hge : i + 4 ≤ p := scanAux_ge _ _ p hp
      have key : (b0 :: b1 :: b2 :: b3 :: rest).drop (p - i) =
          rest.drop (p - (i + 4)) := by
        have h4 : rest = (b0 :: b1 :: b2 :: b3 :: rest).drop 4 := rfl
        rw [h4, List.drop_drop]
        congr 1
        omega
      rw [key]
      exact ih p hp
  | case3 b0 b1 b2 b3 rest i h1 h2 ih =>
    intro p hp
    simp only [scanAux, if_neg h1, if_neg h2] at hp
    have hge : i + 1 ≤ p := scanAux_ge _ _ p hp
    have key : (b0 :: b1 :: b2 :: b3 :: rest).drop (p - i) =
        (b1 :: b2 :: b3 :: rest).drop (p - (i + 1)) := by
      have hd : (b1 :: b2 :: b3 :: rest) = (b0 :: b1 :: b2 :: b3 :: rest).drop 1 := rfl
      rw [hd, List.drop_drop]
      congr 1
      omega
    rw [key]
    exact ih p hp
  | case4 t x h =>
    intro p hp
    rw [scanAux_atom x h] at hp
    exact absurd hp (List.not_mem_nil p)

/-- A start-code position always leaves at least 4 bytes in the buffer. -/
theorem scanAux_le_len (s : List Nat) (i : Nat) {p : Nat} (hp : p ∈ scanAux s i) :
    p - i + 4 ≤ s.length := by
  rcases scanAux_pattern s i p hp with ⟨_, hlen⟩ | ⟨_, hlen⟩ <;>
    rw [List.length_drop] at hlen <;> omega

theorem scanAux_gap (s : List Nat) (i : Nat) : ∀ p ps, scanAux s i = p :: ps →
    ∀ q ∈ ps, p + 3 ≤ q := by
  induction s, i using scanAux.induct with
  | case1 b0 b1 b2 b3 rest i h ih =>
    intro p ps hed q hq
    simp only [scanAux, if_pos h] at hed
    injection hed with e1 e2
    subst e1
    rw [← e2] at hq
    exact scanAux_ge _ _ q hq
  | case2 b0 b1 b2 b3 rest i h1 h ih =>
    intro p ps hed q hq
    simp only [scanAux, if_neg h1, if_pos h] at hed
    injection hed with e1 e2
    subst e1
    rw [← e2] at hq
    have := scanAux_ge _ _ q hq
    omega
  | case3 b0 b1 b2 b3 rest i h1 h2 ih =>
    intro p ps hed q hq
    simp only [scanAux, if_neg h1, if_neg h2] at hed
    exact ih p ps hed q hq
  | case4 t x h =>
    intro p ps hed
    rw [scanAux_atom x h] at hed
    exact absurd hed (by simp)

theorem scanAux_pair (s : List Nat) (i : Nat) : ∀ a b,
    (a, b) ∈ (scanAux s i).zip (scanAux s i).tail →
    a + 3 ≤ b ∧ ((s.drop (a - i)).take 3 = [0, 0, 1] ∨
      ((s.drop (a - i)).take 4 = [0, 0, 0, 1] ∧ a + 4 ≤ b)) := by
  induction s, i using scanAux.induct with
  | case1 b0 b1 b2 b3 rest i h ih =>
    intro a b hab
    simp only [scanAux, if_pos h] at hab
    rcases hR : scanAux (b3 :: rest) (i + 3) with _ | ⟨r0, R2⟩
    · rw [hR] at hab
      simp at hab
    · rw [hR] at hab
      simp only [List.tail_cons, List.zip_cons_cons, List.mem_cons] at hab
      rcases hab with hab | hab
      · have ha : a = i := congrArg Prod.fst hab
        have hb : b = r0 := congrArg Prod.snd hab
        have hr0 : r0 ∈ scanAux (b3 :: rest) (i + 3) := by rw [hR]; simp
        have hgap := scanAux_ge _ _ r0 hr0
        obtain ⟨rfl, rfl, rfl⟩ := h
        rw [ha, hb]
        refine ⟨by omega, Or.inl ?_⟩
        simp [Nat.sub_self]
      · have hmem := (List.of_mem_zip hab).1
        have hamem : a ∈ scanAux (b3 :: rest) (i + 3) := by
          rw [hR]; exact hmem
        have hge : i + 3 ≤ a := scanAux_ge _ _ a hamem
        have key : (b0 :: b1 :: b2 :: b3 :: rest).drop (a - i) =
            (b3 :: rest).drop (a - (i + 3)) := by
          have h3 : (b3 :: rest) = (b0 :: b1 :: b2 :: b3 :: rest).drop 3 := rfl
          rw [h3, List.drop_drop]
          congr 1
          omega
        rw [key]
        refine ih a b ?_
        rw [hR]
        simpa using hab
  | case2 b0 b1 b2 b3 rest i h1 h ih =>
    intro a b hab
    simp only [scanAux, if_neg h1, if_pos h] at hab
    rcases hR : scanAux rest (i + 4) with _ | ⟨r0, R2⟩
    · rw [hR] at hab
      simp at hab
    · rw [hR] at hab
      simp only [List.tail_cons, List.zip_cons_cons, List.mem_cons] at hab
      rcases hab with hab | hab
      · have ha : a = i := congrArg Prod.fst hab
        have hb : b = r0 := congrArg Prod.snd hab
        have hr0 : r0 ∈ scanAux rest (i + 4) := by rw [hR]; simp
        have hgap := scanAux_ge _ _ r0 hr0
        obtain ⟨rfl, rfl, rfl, rfl, hne⟩ := h
        rw [ha, hb]
        refine ⟨by omega, Or.inr ⟨?_, by omega⟩⟩
        simp [Nat.sub_self]
      · have hmem := (List.of_mem_zip hab).1
        have hamem : a ∈ scanAux rest (i + 4) := by
          rw [hR]; exact hmem
        have hge : i + 4 ≤ a := scanAux_ge _ _ a hamem
        have key : (b0 :: b1 :: b2 :: b3 :: rest).drop (a - i) =
            rest.drop (a - (i + 4)) := by
          have h4 : rest = (b0 :: b1 :: b2 :: b3 :: rest).drop 4 := rfl
          rw [h4, List.drop_drop]
          congr 1
          omega
        rw [key]
        refine ih a b ?_
        rw [hR]
        simpa using hab
  | case3 b0 b1 b2 b3 rest i h1 h2 ih =>
    intro a b hab
    simp only [scanAux, if_neg h1, if_neg h2] at hab
    have hmem := (List.of_mem_zip hab).1
    have hge : i + 1 ≤ a := scanAux_ge _ _ a hmem
    have key : (b0 :: b1 :: b2 :: b3 :: rest).drop (a - i) =
        (b1 :: b2 :: b3 :: rest).drop (a - (i + 1)) := by
      have hd : (b1 :: b2 :: b3 :: rest) = (b0 :: b1 :: b2 :: b3 :: rest).drop 1 := rfl
      rw [hd, List.drop_drop]
      congr 1
      omega
    rw [key]
    exact ih a b hab
  | case4 t x h =>
    intro a b hab
    rw [scanAux_atom x h] at hab
    simp at hab

theorem scanAux_no_one : ∀ (s : List Nat) (i : Nat), (∀ x ∈ s, x ≠ 1) → scanAux s i = [] := by
  intro s i
  induction s, i using scanAux.induct with
  | case1 b0 b1 b2 b3 rest i h ih =>
    intro hno
    exact absurd h.2.2 (hno b2 (by simp))
  | case2 b0 b1 b2 b3 rest i h1 h ih =>
    intro hno
    exact absurd h.2.2.2.1 (hno b3 (by simp))
  | case3 b0 b1 b2 b3 rest i h1 h2 ih =>
    intro hno
    simp only [scanAux, if_neg h1, if_neg h2]
    exact ih fun x hx => hno x (List.mem_cons_of_mem b0 hx)
  | case4 t x h =>
    intro _
    exact scanAux_atom x h

/-- Dropping the bytes before the first found start code does not change the
scan result (this is why the `push` recursion after the garbage trim
re-finds the same units). -/
theorem scanAux_first (s : List Nat) (i : Nat) : ∀ p ps, scanAux s i = p :: ps →
    scanAux (s.drop (p - i)) p = p :: ps := by
  induction s, i using scanAux.induct with
  | case1 b0 b1 b2 b3 rest i h ih =>
    intro p ps hed
    simp only [scanAux, if_pos h] at hed
    injection hed with e1 e2
    subst e1
    rw [Nat.sub_self, List.drop_zero]
    simp only [scanAux, if_pos h]
    rw [e2]
  | case2 b0 b1 b2 b3 rest i h1 h ih =>
    intro p ps hed
    simp only [scanAux, if_neg h1, if_pos h] at hed
    injection hed with e1 e2
    subst e1
    rw [Nat.sub_self, List.drop_zero]
    simp only [scanAux, if_neg h1, if_pos h]
    rw [e2]
  | case3 b0 b1 b2 b3 rest i h1 h2 ih =>
    intro p ps hed
    simp only [scanAux, if_neg h1, if_neg h2] at hed
    have hp : i + 1 ≤ p := by
      have hm : p ∈ scanAux (b1 :: b2 :: b3 :: rest) (i + 1) := by rw [hed]; simp
      exact scanAux_ge _ _ p hm
    have key : (b0 :: b1 :: b2 :: b3 :: rest).drop (p - i) =
        (b1 :: b2 :: b3 :: rest).drop (p - (i + 1)) := by
      have hd : (b1 :: b2 :: b3 :: rest) = (b0 :: b1 :: b2 :: b3 :: rest).drop 1 := rfl
      rw [hd, List.drop_drop]
      congr 1
      omega
    rw [key]
    exact ih p ps hed
  | case4 t x h =>
    intro p ps hed
    rw [scanAux_atom x h] at hed
    exact absurd hed (by simp)

theorem drop_offset (s : List Nat) (k a b : Nat) (hab : a = k + b) :
    s.drop a = (s.drop k).drop b := by
  rw [List.drop_drop, hab, Nat.add_comm]

/-- Appending more bytes to a buffer whose scan found at least one start
code: the scan of the extension re-finds all starts but the last, and then
continues as the scan of "retained tail plus new bytes" would. -/
theorem scanAux_append (s : List Nat) (i : Nat) : ∀ y, scanAux s i ≠ [] →
    scanAux (s ++ y) i =
      (scanAux s i).dropLast ++
        scanAux (s.drop ((scanAux s i).getLastD 0 - i) ++ y) ((scanAux s i).getLastD 0) := by
  induction s, i using scanAux.induct with
  | case1 b0 b1 b2 b3 rest i h ih =>
    intro y hne
    have hs : scanAux (b0 :: b1 :: b2 :: b3 :: rest) i =
        i :: scanAux (b3 :: rest) (i + 3) := by
      simp only [scanAux, if_pos h]
    have hsy : scanAux ((b0 :: b1 :: b2 :: b3 :: rest) ++ y) i =
        i :: scanAux ((b3 :: rest) ++ y) (i + 3) := by
      simp only [List.cons_append, List.append_eq, scanAux, if_pos h]
    rcases hR : scanAux (b3 :: rest) (i + 3) with _ | ⟨r0, R2⟩
    · rw [hs, hR]
      simp [Nat.sub_self]
    · have hRne : scanAux (b3 :: rest) (i + 3) ≠ [] := by rw [hR]; simp
      have ihy := ih y hRne
      have hLmem := getLastD_mem hRne 0
      have hLge : i + 3 ≤ (scanAux (b3 :: rest) (i + 3)).getLastD 0 :=
        scanAux_ge _ _ _ hLmem
      set L := (scanAux (b3 :: rest) (i + 3)).getLastD 0 with hL
      have key : (b0 :: b1 :: b2 :: b3 :: rest).drop (L - i) =
          (b3 :: rest).drop (L - (i + 3)) := by
        have hk := drop_offset (b0 :: b1 :: b2 :: b3 :: rest) 3 (L - i) (L - (i + 3))
          (by omega)
        have hd3 : (b0 :: b1 :: b2 :: b3 :: rest).drop 3 = b3 :: rest := rfl
        rw [hd3] at hk
        exact hk
      have hgl : (i :: scanAux (b3 :: rest) (i + 3)).getLastD 0 = L := by
        rw [List.getLastD_cons]
        exact getLastD_of_ne_nil hRne i 0
      rw [hsy, ihy, hs, List.dropLast_cons_of_ne_nil hRne, hgl, key, List.cons_append]
  | case2 b0 b1 b2 b3 rest i h1 h ih =>
    intro y hne
    have hs : scanAux (b0 :: b1 :: b2 :: b3 :: rest) i =
        i :: scanAux rest (i + 4) := by
      simp only [scanAux, if_neg h1, if_pos h]
    have hy2 : b0 = 0 ∧ b1 = 0 ∧ b2 = 0 ∧ b3 = 1 ∧ rest ++ y ≠ [] := by
      obtain ⟨c0, c1, c2, c3, hr⟩ := h
      exact ⟨c0, c1, c2, c3, by simp [hr]⟩
    have hsy : scanAux ((b0 :: b1 :: b2 :: b3 :: rest) ++ y) i =
        i :: scanAux (rest ++ y) (i + 4) := by
      simp only [List.cons_append, List.append_eq, scanAux, if_neg h1, if_pos hy2]
    rcases hR : scanAux rest (i + 4) with _ | ⟨r0, R2⟩
    · rw [hs, hR]
      simp [Nat.sub_self]
    · have hRne : scanAux rest (i + 4) ≠ [] := by rw [hR]; simp
      have ihy := ih y hRne
      have hLmem := getLastD_mem hRne 0
      have hLge : i + 4 ≤ (scanAux rest (i + 4)).getLastD 0 :=
        scanAux_ge _ _ _ hLmem
      set L := (scanAux rest (i + 4)).getLastD 0 with hL
      have key : (b0 :: b1 :: b2 :: b3 :: rest).drop (L - i) =
          rest.drop (L - (i + 4)) := by
        have hk := drop_offset (b0 :: b1 :: b2 :: b3 :: rest) 4 (L - i) (L - (i + 4))
          (by omega)
        have hd4 : (b0 :: b1 :: b2 :: b3 :: rest).drop 4 = rest := rfl
        rw [hd4] at hk
        exact hk
      have hgl : (i :: scanAux rest (i + 4)).getLastD 0 = L := by
        rw [List.getLastD_cons]
        exact getLastD_of_ne_nil hRne i 0
      rw [hsy, ihy, hs, List.dropLast_cons_of_ne_nil hRne, hgl, key, List.cons_append]
  | case3 b0 b1 b2 b3 rest i h1 h2 ih =>
    intro y hne
    have hs : scanAux (b0 :: b1 :: b2 :: b3 :: rest) i =
        scanAux (b1 :: b2 :: b3 :: rest) (i + 1) := by
      simp only [scanAux, if_neg h1, if_neg h2]
    have hrne : rest ≠ [] := by
      intro hr
      subst hr
      rw [hs, scanAux_short (i + 1) (by simp)] at hne
      exact hne rfl
    have h2y : ¬(b0 = 0 ∧ b1 = 0 ∧ b2 = 0 ∧ b3 = 1 ∧ rest ++ y ≠ []) := by
      rintro ⟨c0, c1, c2, c3, _⟩
      exact h2 ⟨c0, c1, c2, c3, hrne⟩
    have hsy : scanAux ((b0 :: b1 :: b2 :: b3 :: rest) ++ y) i =
        scanAux ((b1 :: b2 :: b3 :: rest) ++ y) (i + 1) := by
      simp only [List.cons_append, List.append_eq, scanAux, if_neg h1, if_neg h2y]
    rw [hs] at hne ⊢
    have ihy := ih y hne
    have hLmem := getLastD_mem hne 0
    have hLge : i + 1 ≤ (scanAux (b1 :: b2 :: b3 :: rest) (i + 1)).getLastD 0 :=
      scanAux_ge _ _ _ hLmem
    set L := (scanAux (b1 :: b2 :: b3 :: rest) (i + 1)).getLastD 0 with hL
    have key : (b0 :: b1 :: b2 :: b3 :: rest).drop (L - i) =
        (b1 :: b2 :: b3 :: rest).drop (L - (i + 1)) := by
      have hk := drop_offset (b0 :: b1 :: b2 :: b3 :: rest) 1 (L - i) (L - (i + 1))
        (by omega)
      have hd1 : (b0 :: b1 :: b2 :: b3 :: rest).drop 1 = b1 :: b2 :: b3 :: rest := rfl
      rw [hd1] at hk
      exact hk
    rw [hsy, ihy, key]
  | case4 t x h =>
    intro y hne
    rw [scanAux_atom x h] at hne
    exact absurd rfl hne

theorem zip_tail_nil {l : List Nat} (h : l.length < 2) : l.zip l.tail = [] := by
  match l with
  | [] => rfl
  | [a] => rfl
  | a :: b :: t => exact absurd h (by simp)

theorem getLastD_map (f : Nat → Nat) : ∀ (l : List Nat) (d : Nat),
    (l.map f).getLastD (f d) = f (l.getLastD d)
  | [], _ => rfl
  | a :: t, d => by
    simp only [List.map_cons, List.getLastD_cons]
    exact getLastD_map f t a

/-- After the pre-start garbage is dropped, the scan finds the same starts,
shifted to begin at offset 0. -/
theorem scanStarts_drop_first (buf : List Nat) (s0 : Nat) (rest : List Nat)
    (h : scanStarts buf = s0 :: rest) :
    scanStarts (buf.drop s0) = 0 :: rest.map (· - s0) := by
  have hfs := scanAux_first buf 0 s0 rest h
  rw [Nat.sub_zero] at hfs
  have hsh := scanAux_shift (buf.drop s0) 0 s0
  rw [Nat.add_zero] at hsh
  rw [hsh] at hfs
  calc scanStarts (buf.drop s0)
      = (scanStarts (buf.drop s0)).map (fun x => x + s0 - s0) := by
        simp
    _ = ((scanStarts (buf.drop s0)).map (· + s0)).map (· - s0) := by
        rw [List.map_map]
        rfl
    _ = (s0 :: rest).map (· - s0) := by
        rw [show (scanStarts (buf.drop s0)).map (· + s0) = s0 :: rest from hfs]
    _ = 0 :: rest.map (· - s0) := by simp

/-- `pushCore` computes exactly the between-starts units and the
from-the-last-start tail of a single scan of the whole buffer. -/
theorem pushCore_eq (maxNal : Nat) (buf : List Nat) :
    pushCore maxNal buf = (emitUnits maxNal buf, tailBuf buf) := by
  refine pushCore.induct maxNal
    (fun b => pushCore maxNal b = (emitUnits maxNal b, tailBuf b)) ?_ ?_ ?_ ?_ buf
  · intro x hx
    have hS : scanStarts x = [] := scanAux_short 0 hx
    rw [pushCore, dif_pos hx]
    rw [emitUnits, tailBuf, hS]
    simp
  · intro x hx h2
    rw [pushCore, dif_neg hx, dif_pos h2]
    rw [emitUnits, tailBuf, zip_tail_nil h2, if_pos h2]
    simp
  · intro x hx h2 h0 ih
    rw [pushCore, dif_neg hx, dif_neg h2, dif_pos h0]
    rw [ih]
    rcases hS : scanStarts x with _ | ⟨s0, rest⟩
    · rw [hS] at h2
      simp at h2
    simp only [List.headD_cons]
    have hrne : rest ≠ [] := by
      intro hr
      rw [hS, hr] at h2
      simp at h2
    have hdrop := scanStarts_drop_first x s0 rest hS
    have hs0rest : ∀ q ∈ rest, s0 + 3 ≤ q := scanAux_gap x 0 s0 rest hS
    rw [Prod.mk.injEq]
    constructor
    · rw [emitUnits, emitUnits, hdrop, hS]
      have hzip : (0 :: rest.map (· - s0)).zip (rest.map (· - s0)) =
          ((s0 :: rest).zip rest).map (Prod.map (· - s0) (· - s0)) := by
        have : (0 : Nat) = s0 - s0 := by omega
        rw [this, show ((s0 - s0) :: rest.map (· - s0)) = (s0 :: rest).map (· - s0) from rfl]
        rw [List.zip_map]
      simp only [List.tail_cons]
      rw [hzip, List.filterMap_map]
      refine List.filterMap_congr ?_
      rintro ⟨a, b⟩ hab
      have hamem : a ∈ s0 :: rest := (List.of_mem_zip hab).1
      have ha : s0 ≤ a := by
        rcases List.mem_cons.mp hamem with rfl | ha
        · exact le_refl a
        · have := hs0rest a ha
          omega
      have hgap : a + 3 ≤ b := (scanAux_pair x 0 a b (by
        rw [show scanAux x 0 = s0 :: rest from hS]
        simpa using hab)).1
      have hdd : (x.drop s0).drop (a - s0) = x.drop a :=
        (drop_offset x s0 a (a - s0) (by omega)).symm
      simp only [Function.comp, Prod.map, unitF]
      rw [hdd]
      have hsub : b - s0 - (a - s0) = b - a := by omega
      rw [hsub]
    · rw [tailBuf, tailBuf, hdrop, hS]
      have hlen2 : ¬(s0 :: rest).length < 2 := by
        rw [hS] at h2
        exact h2
      have hlen2d : ¬(0 :: rest.map (· - s0)).length < 2 := by
        simp only [List.length_cons, List.length_map] at hlen2 ⊢
        exact hlen2
      rw [if_neg hlen2d, if_neg hlen2]
      have hgl : (0 :: rest.map (· - s0)).getLastD 0 = rest.getLastD 0 - s0 := by
        rw [List.getLastD_cons]
        calc (rest.map (· - s0)).getLastD 0
            = (rest.map (· - s0)).getLastD (s0 - s0) := by rw [Nat.sub_self]
          _ = rest.getLastD s0 - s0 := getLastD_map (· - s0) rest s0
          _ = rest.getLastD 0 - s0 := by rw [getLastD_of_ne_nil hrne s0 0]
      have hglx : (s0 :: rest).getLastD 0 = rest.getLastD 0 := by
        rw [List.getLastD_cons]
        exact getLastD_of_ne_nil hrne s0 0
      rw [hgl, hglx]
      have hgL : s0 + 3 ≤ rest.getLastD 0 := hs0rest _ (getLastD_mem hrne 0)
      exact (drop_offset x s0 (rest.getLastD 0) (rest.getLastD 0 - s0) (by omega)).symm
  · intro x hx h2 h0
    rw [pushCore, dif_neg hx, dif_neg h2, dif_neg h0]
    rw [emitUnits, tailBuf, if_neg h2]
    rfl

theorem dropLast_concat_getLastD : ∀ {l : List Nat}, l ≠ [] → l.dropLast ++ [l.getLastD 0] = l
  | [], h => absurd rfl h
  | [a], _ => rfl
  | a :: b :: t, _ => by
    have hbt : (b :: t : List Nat) ≠ [] := by simp
    have ih := dropLast_concat_getLastD hbt
    have h1 : (a :: b :: t).getLastD 0 = (b :: t).getLastD 0 :=
      (List.getLastD_cons a 0 (b :: t)).trans (getLastD_of_ne_nil hbt a 0)
    rw [h1, List.dropLast_cons_of_ne_nil hbt, List.cons_append, ih]

theorem pairs_append : ∀ (A C : List Nat), A ≠ [] → C ≠ [] →
    (A ++ C).zip (A ++ C).tail =
      A.zip A.tail ++ (A.getLastD 0, C.headD 0) :: C.zip C.tail
  | [], _, hA, _ => absurd rfl hA
  | [a], c :: cs, _, _ => by
    simp [List.getLastD]
  | a1 :: a2 :: As, C, _, hC => by
    have ih := pairs_append (a2 :: As) C (by simp) hC
    have hgl : (a1 :: a2 :: As).getLastD 0 = (a2 :: As).getLastD 0 := by
      rw [List.getLastD_cons]
      exact getLastD_of_ne_nil (by simp) a1 0
    simp only [List.cons_append, List.tail_cons, List.zip_cons_cons] at ih ⊢
    rw [hgl, ih]

theorem getLastD_append (A : List Nat) {C : List Nat} (hC : C ≠ []) (d : Nat) :
    (A ++ C).getLastD d = C.getLastD d := by
  induction A with
  | nil => rfl
  | cons a A ih =>
    rw [List.cons_append, List.getLastD_cons,
      getLastD_of_ne_nil (by simp [hC] : A ++ C ≠ []) a d]
    exact ih

theorem drop_append_le (x y : List Nat) {L : Nat} (hL : L ≤ x.length) :
    (x ++ y).drop L = x.drop L ++ y := by
  rw [List.drop_append_eq_append_drop, Nat.sub_eq_zero_of_le hL, List.drop_zero]

theorem slice_append (x y : List Nat) (a b : Nat) (hb : b ≤ x.length) :
    ((x ++ y).drop a).take (b - a) = (x.drop a).take (b - a) := by
  by_cases hab : b ≤ a
  · rw [Nat.sub_eq_zero_of_le hab]
    simp
  · have ha : a ≤ x.length := by omega
    have h2 : b - a - (x.drop a).length = 0 := by
      rw [List.length_drop]
      omega
    rw [drop_append_le x y ha, List.take_append_eq_append_take, h2, List.take_zero,
      List.append_nil]

theorem zip_tail_map (f : Nat → Nat) (l : List Nat) :
    (l.map f).zip (l.map f).tail = (l.zip l.tail).map (Prod.map f f) := by
  match l with
  | [] => rfl
  | a :: t =>
    simp only [List.map_cons, List.tail_cons]
    rw [show (f a :: List.map f t) = (a :: t).map f from rfl, List.zip_map]

theorem filterMap_unitF_append (m : Nat) (x y : List Nat) (P : List (Nat × Nat))
    (hP : ∀ ab ∈ P, ab.2 ≤ x.length) :
    P.filterMap (unitF m (x ++ y)) = P.filterMap (unitF m x) := by
  refine List.filterMap_congr ?_
  intro ab hab
  rw [unitF, unitF, slice_append x y ab.1 ab.2 (hP ab hab)]

theorem filterMap_unitF_shift (m : Nat) (x y : List Nat) {L : Nat} (hL : L ≤ x.length)
    (P : List (Nat × Nat)) :
    (P.map (Prod.map (· + L) (· + L))).filterMap (unitF m (x ++ y)) =
      P.filterMap (unitF m (x.drop L ++ y)) := by
  rw [List.filterMap_map]
  refine List.filterMap_congr ?_
  intro ab _
  simp only [Function.comp, Prod.map, unitF]
  rw [show (x ++ y).drop (ab.1 + L) = ((x ++ y).drop L).drop ab.1 from
    drop_offset _ L _ _ (by omega)]
  rw [drop_append_le x y hL]
  rw [show ab.2 + L - (ab.1 + L) = ab.2 - ab.1 from by omega]

theorem emitUnits_short (m : Nat) (buf : List Nat)
    (h : (scanStarts buf).length < 2) : emitUnits m buf = [] := by
  rw [emitUnits, zip_tail_nil h]
  rfl

/-- A buffer that starts with a complete start code (with one byte to
spare) yields a scan whose first start is at offset 0, whatever follows. -/
theorem scanStarts_head_zero {t : List Nat}
    (h : (t.take 3 = [0, 0, 1] ∧ 4 ≤ t.length) ∨
      (t.take 4 = [0, 0, 0, 1] ∧ 5 ≤ t.length)) (y : List Nat) :
    ∃ R, scanStarts (t ++ y) = 0 :: R := by
  match t with
  | [] | [_] | [_, _] | [_, _, _] =>
    rcases h with ⟨_, hlen⟩ | ⟨_, hlen⟩ <;> simp at hlen
  | a :: b :: c :: d :: r =>
    rcases h with ⟨htake, _⟩ | ⟨htake, hlen⟩
    · rw [show (a :: b :: c :: d :: r).take 3 = [a, b, c] from rfl] at htake
      obtain ⟨rfl, rfl, rfl⟩ : a = 0 ∧ b = 0 ∧ c = 1 := by
        simpa using htake
      refine ⟨scanAux (d :: (r ++ y)) 3, ?_⟩
      rw [scanStarts]
      simp only [List.cons_append]
      rw [scanAux, if_pos ⟨rfl, rfl, rfl⟩]
    · rw [show (a :: b :: c :: d :: r).take 4 = [a, b, c, d] from rfl] at htake
      obtain ⟨rfl, rfl, rfl, rfl⟩ : a = 0 ∧ b = 0 ∧ c = 0 ∧ d = 1 := by
        simpa using htake
      have hr : r ≠ [] := by
        simp only [List.length_cons] at hlen
        intro hnil
        rw [hnil] at hlen
        simp at hlen
      refine ⟨scanAux (r ++ y) 4, ?_⟩
      rw [scanStarts]
      simp only [List.cons_append]
      rw [scanAux, if_neg (by simp), if_pos ⟨rfl, rfl, rfl, rfl, by simp [hr]⟩]

theorem mem_of_tail {a : Nat} {l : List Nat} (h : a ∈ l.tail) : a ∈ l := by
  match l with
  | [] => exact absurd h (by simp)
  | b :: t => exact List.mem_cons_of_mem b h

/-- Fusion at the scan level: processing `x ++ y` in one scan is the same
as scanning `x`, keeping its tail, and then scanning `tail ++ y`. -/
theorem scan_fusion (m : Nat) (x y : List Nat) :
    emitUnits m (x ++ y) = emitUnits m x ++ emitUnits m (tailBuf x ++ y) ∧
    tailBuf (x ++ y) = tailBuf (tailBuf x ++ y) := by
  by_cases h2 : (scanStarts x).length < 2
  · have htx : tailBuf x = x := by rw [tailBuf, if_pos h2]
    have hex : emitUnits m x = [] := emitUnits_short m x h2
    rw [htx, hex, List.nil_append]
    exact ⟨rfl, rfl⟩
  · have hSne : scanStarts x ≠ [] := by
      intro hnil
      rw [hnil] at h2
      simp at h2
    have hLmem : (scanStarts x).getLastD 0 ∈ scanStarts x := getLastD_mem hSne 0
    set L := (scanStarts x).getLastD 0 with hLdef
    have hL4 : L + 4 ≤ x.length := by
      have := scanAux_le_len x 0 hLmem
      omega
    have hLlen : L ≤ x.length := by omega
    have htx : tailBuf x = x.drop L := by rw [tailBuf, if_neg h2]
    have hpat := scanAux_pattern x 0 L hLmem
    rw [Nat.sub_zero] at hpat
    have hD := scanAux_append x 0 y hSne
    rw [Nat.sub_zero] at hD
    rw [show scanAux (x ++ y) 0 = scanStarts (x ++ y) from rfl,
      show scanAux x 0 = scanStarts x from rfl] at hD
    rw [← hLdef] at hD
    have hsh := scanAux_shift (x.drop L ++ y) 0 L
    rw [Nat.add_zero] at hsh
    obtain ⟨R, hR⟩ := scanStarts_head_zero hpat y
    rw [show scanAux (x.drop L ++ y) 0 = scanStarts (x.drop L ++ y) from rfl, hR,
      List.map_cons, Nat.zero_add] at hsh
    rw [hsh] at hD
    rw [htx]
    rcases R with _ | ⟨r1, R2⟩
    · rw [List.map_nil] at hD
      have hfull : (scanStarts x).dropLast ++ [L] = scanStarts x :=
        dropLast_concat_getLastD hSne
      rw [hfull] at hD
      have hT2 : (scanStarts (x.drop L ++ y)).length < 2 := by rw [hR]; simp
      have heT : emitUnits m (x.drop L ++ y) = [] := emitUnits_short _ _ hT2
      have htT : tailBuf (x.drop L ++ y) = x.drop L ++ y := by
        rw [tailBuf, if_pos hT2]
      constructor
      · rw [heT, List.append_nil, emitUnits, emitUnits, hD]
        refine filterMap_unitF_append m x y _ ?_
        intro ab hab
        have hbm : ab.2 ∈ scanStarts x := mem_of_tail (List.of_mem_zip hab).2
        have := scanAux_le_len x 0 hbm
        omega
      · rw [htT]
        have hout : tailBuf (x ++ y) = (x ++ y).drop L := by
          rw [tailBuf, hD, if_neg h2]
        rw [hout, drop_append_le x y hLlen]
    · have hCne : ((r1 :: R2).map (· + L)) ≠ [] := by simp
      have hregroup : (scanStarts x).dropLast ++ (L :: (r1 :: R2).map (· + L)) =
          scanStarts x ++ (r1 :: R2).map (· + L) := by
        rw [show (L :: (r1 :: R2).map (· + L)) = [L] ++ (r1 :: R2).map (· + L) from rfl,
          ← List.append_assoc, dropLast_concat_getLastD hSne]
      rw [hregroup] at hD
      have hT2 : ¬(scanStarts (x.drop L ++ y)).length < 2 := by rw [hR]; simp
      have hTgl : (scanStarts (x.drop L ++ y)).getLastD 0 = (r1 :: R2).getLastD 0 := by
        rw [hR, List.getLastD_cons]
      have htT : tailBuf (x.drop L ++ y) = (x.drop L ++ y).drop ((r1 :: R2).getLastD 0) := by
        rw [tailBuf, if_neg hT2, hTgl]
      have hP := pairs_append (scanStarts x) ((r1 :: R2).map (· + L)) hSne hCne
      have hhead : (((r1 :: R2).map (· + L))).headD 0 = r1 + L := by simp
      constructor
      · rw [emitUnits, emitUnits, emitUnits, hD, hP, ← hLdef, hhead, List.filterMap_append]
        congr 1
        · refine filterMap_unitF_append m x y _ ?_
          intro ab hab
          have hbm : ab.2 ∈ scanStarts x := mem_of_tail (List.of_mem_zip hab).2
          have := scanAux_le_len x 0 hbm
          omega
        · rw [zip_tail_map (· + L) (r1 :: R2)]
          have hbridge : ((L, r1 + L) :: ((r1 :: R2).zip (r1 :: R2).tail).map
                (Prod.map (· + L) (· + L))) =
              ((0, r1) :: (r1 :: R2).zip (r1 :: R2).tail).map
                (Prod.map (· + L) (· + L)) := by
            simp [Prod.map]
          rw [hbridge, hR]
          rw [show ((0, r1) :: (r1 :: R2).zip (r1 :: R2).tail) =
            (0 :: r1 :: R2).zip (0 :: r1 :: R2).tail from by
              simp only [List.tail_cons, List.zip_cons_cons]]
          exact filterMap_unitF_shift m x y hLlen _
      · have hlen : ¬(scanStarts (x ++ y)).length < 2 := by
          rw [hD, List.length_append]
          simp only [List.length_map, List.length_cons]
          omega
        have hout : tailBuf (x ++ y) =
            (x ++ y).drop (((r1 :: R2).map (· + L)).getLastD 0) := by
          rw [tailBuf, if_neg hlen, hD, getLastD_append (scanStarts x) hCne 0]
        have hgl : ((r1 :: R2).map (· + L)).getLastD 0 = (r1 :: R2).getLastD 0 + L := by
          calc ((r1 :: R2).map (· + L)).getLastD 0
              = ((r1 :: R2).map (· + L)).getLastD (0 + L) := by
                rw [getLastD_of_ne_nil (by simp) 0 (0 + L)]
            _ = (r1 :: R2).getLastD 0 + L := getLastD_map (· + L) (r1 :: R2) 0
        rw [hout, hgl, htT]
        rw [show (x ++ y).drop ((r1 :: R2).getLastD 0 + L) =
          ((x ++ y).drop L).drop ((r1 :: R2).getLastD 0) from
          drop_offset _ L _ _ (by omega)]
        rw [drop_append_le x y hLlen]

theorem tailBuf_length_le (buf : List Nat) : (tailBuf buf).length ≤ buf.length := by
  rw [tailBuf]
  split
  · exact le_refl _
  · rw [List.length_drop]
    omega

/-- The retained tail is a fixed point: pushing nothing more emits nothing
and keeps the buffer. -/
theorem tailBuf_fix (m : Nat) (x : List Nat) :
    emitUnits m (tailBuf x) = [] ∧ tailBuf (tailBuf x) = tailBuf x := by
  have h := scan_fusion m x []
  rw [List.append_nil, List.append_nil] at h
  obtain ⟨h1, h2⟩ := h
  exact ⟨(List.append_right_eq_self.mp h1.symm), h2.symm⟩

/-- Processing a chunk list from a reachable extractor state (buffer =
retained tail of the bytes seen so far) is one big scan, provided the total
input fits under the soft cap. -/
theorem processChunks_eq (chunks : List (List Nat)) : ∀ (x : List Nat),
    (x ++ chunks.flatten).length ≤ 512 * 1024 →
    (processChunks ⟨tailBuf x, 512 * 1024, 4 * 1024 * 1024⟩ chunks).1 =
        ⟨tailBuf (x ++ chunks.flatten), 512 * 1024, 4 * 1024 * 1024⟩ ∧
      emitUnits (4 * 1024 * 1024) x ++
          (processChunks ⟨tailBuf x, 512 * 1024, 4 * 1024 * 1024⟩ chunks).2 =
        emitUnits (4 * 1024 * 1024) (x ++ chunks.flatten) := by
  induction chunks with
  | nil =>
    intro x hcap
    rw [processChunks, List.flatten_nil, List.append_nil]
    exact ⟨rfl, by rw [List.append_nil]⟩
  | cons c cs ih =>
    intro x hcap
    have hflat : (c :: cs).flatten = c ++ cs.flatten := rfl
    have hassoc : x ++ (c :: cs).flatten = (x ++ c) ++ cs.flatten := by
      rw [hflat, List.append_assoc]
    have hcap2 : ((x ++ c) ++ cs.flatten).length ≤ 512 * 1024 := by
      rw [← hassoc]
      exact hcap
    have hfus := scan_fusion (4 * 1024 * 1024) x c
    have hpush : H264UnitExtractor.push ⟨tailBuf x, 512 * 1024, 4 * 1024 * 1024⟩ c =
        (⟨tailBuf (x ++ c), 512 * 1024, 4 * 1024 * 1024⟩,
          emitUnits (4 * 1024 * 1024) (tailBuf x ++ c)) := by
      by_cases hc : c = []
      · subst hc
        rw [H264UnitExtractor.push, if_pos rfl]
        rw [pushCore_eq]
        rw [List.append_nil, List.append_nil]
        obtain ⟨hfix1, hfix2⟩ := tailBuf_fix (4 * 1024 * 1024) x
        rw [hfix1, hfix2]
      · have hlenc : (tailBuf x ++ c).length ≤ 512 * 1024 := by
          rw [List.length_append]
          have h1 := tailBuf_length_le x
          rw [hassoc, List.length_append, List.length_append] at hcap
          omega
        rw [H264UnitExtractor.push, if_neg hc]
        have hcond : ¬((⟨tailBuf x, 512 * 1024, 4 * 1024 * 1024⟩ :
            H264UnitExtractor).maxBuffer <
            ((⟨tailBuf x, 512 * 1024, 4 * 1024 * 1024⟩ : H264UnitExtractor).buf ++ c).length) := by
          show ¬(512 * 1024 < (tailBuf x ++ c).length)
          omega
        rw [if_neg hcond]
        rw [pushCore_eq]
        rw [← hfus.2]
    rw [processChunks, hpush]
    dsimp only
    obtain ⟨ihfst, ihsnd⟩ := ih (x ++ c) hcap2
    constructor
    · rw [ihfst, hassoc]
    · rw [hassoc, ← ihsnd, hfus.1, List.append_assoc]

theorem flush_snd (e : H264UnitExtractor) : e.flush.2 = flushOut e.buf := by
  rw [H264UnitExtractor.flush, flushOut]
  by_cases h5 : e.buf.length < 5
  · rw [if_pos h5, if_pos h5]
  · rw [if_neg h5, if_neg h5]
    dsimp only
    by_cases h4 : (normalizeUnit e.buf).take 4 = [0, 0, 0, 1]
    · rw [if_pos h4, if_pos h4]
    · rw [if_neg h4, if_neg h4]

/-- Main extractor theorem: for any chunking of an input that fits under
the soft cap, the pushes followed by the flush produce exactly the units of
one scan of the whole input. -/
theorem runAll_eq_codeUnits (chunks : List (List Nat))
    (hcap : chunks.flatten.length ≤ 512 * 1024) :
    runAll chunks = codeUnits chunks.flatten := by
  have h := processChunks_eq chunks [] (by simpa using hcap)
  rw [List.nil_append] at h
  obtain ⟨h1, h2⟩ := h
  have hemitnil : emitUnits (4 * 1024 * 1024) ([] : List Nat) = [] :=
    emitUnits_short _ _ (by decide)
  rw [hemitnil, List.nil_append] at h2
  rw [runAll]
  rw [show H264UnitExtractor.init =
    ⟨tailBuf [], 512 * 1024, 4 * 1024 * 1024⟩ from rfl]
  rw [h1, h2, flush_snd, codeUnits]

theorem take4_len {l : List Nat} {a b c d : Nat} (h : l.take 4 = [a, b, c, d]) :
    4 ≤ l.length := by
  have hlen := congrArg List.length h
  rw [List.length_take] at hlen
  simp only [List.length_cons, List.length_nil] at hlen
  omega

/-- Shape of a unit emitted by `push`: it begins with `00 00 00 01` — or
with `00 00 01 00` when the normalisation guard `nal[3:4] != b"\x00"`
suppressed the rewrite — and is at least 4 bytes long. -/
theorem emitUnits_shape (m : Nat) (buf : List Nat) (u : List Nat)
    (h : u ∈ emitUnits m buf) :
    (u.take 4 = [0, 0, 0, 1] ∨ u.take 4 = [0, 0, 1, 0]) ∧ 4 ≤ u.length := by
  rw [emitUnits, List.mem_filterMap] at h
  obtain ⟨ab, hab, hu⟩ := h
  rw [unitF] at hu
  split at hu
  · injection hu with hu
    subst hu
    obtain ⟨hgap, hshape⟩ := scanAux_pair buf 0 ab.1 ab.2 hab
    rw [Nat.sub_zero] at hshape
    rcases hshape with h3 | ⟨h4, hgap4⟩
    · have hslice3 : ((buf.drop ab.1).take (ab.2 - ab.1)).take 3 = [0, 0, 1] := by
        rw [List.take_take, show (3 : Nat) ⊓ (ab.2 - ab.1) = 3 from by
          simp [Nat.min_def]; omega]
        exact h3
      rw [normalizeUnit]
      by_cases hz : ((((buf.drop ab.1).take (ab.2 - ab.1)).drop 3).take 1 ≠ [0])
      · rw [if_pos ⟨hslice3, hz⟩]
        refine ⟨Or.inl rfl, ?_⟩
        simp
      · rw [if_neg (by intro hcon; exact hz hcon.2)]
        have hz2 : (((buf.drop ab.1).take (ab.2 - ab.1)).drop 3).take 1 = [0] := by
          by_contra hne
          exact hz hne
        have ht4 : ((buf.drop ab.1).take (ab.2 - ab.1)).take 4 = [0, 0, 1, 0] := by
          rw [show (4 : Nat) = 3 + 1 from rfl, List.take_add, hslice3, hz2]
          rfl
        exact ⟨Or.inr ht4, take4_len ht4⟩
    · have hslice4 : ((buf.drop ab.1).take (ab.2 - ab.1)).take 4 = [0, 0, 0, 1] := by
        rw [List.take_take, show (4 : Nat) ⊓ (ab.2 - ab.1) = 4 from by
          simp [Nat.min_def]; omega]
        exact h4
      have hslice3 : ((buf.drop ab.1).take (ab.2 - ab.1)).take 3 = [0, 0, 0] := by
        have hkey := List.take_take 3 4 ((buf.drop ab.1).take (ab.2 - ab.1))
        rw [show (3 : Nat) ⊓ 4 = 3 from rfl] at hkey
        rw [← hkey, hslice4]
        decide
      rw [normalizeUnit, if_neg (by
        intro hcon
        have hcontra := hslice3.symm.trans hcon.1
        exact absurd hcontra (by decide))]
      exact ⟨Or.inl hslice4, take4_len hslice4⟩
  · exact absurd hu (by simp)

/-- Shape of the unit emitted by `flush`: 4-byte start code, length ≥ 5. -/
theorem flush_shape (e : H264UnitExtractor) (u : List Nat) (h : u ∈ e.flush.2) :
    u.take 4 = [0, 0, 0, 1] ∧ 5 ≤ u.length := by
  rw [flush_snd, flushOut] at h
  split at h
  · exact absurd h (by simp)
  · split at h
    · rename_i h5 h4
      rw [List.mem_singleton] at h
      subst h
      refine ⟨h4, ?_⟩
      rw [normalizeUnit]
      split
      · simp
        omega
      · omega
  
    · exact absurd h (by simp)

theorem processChunks_shape : ∀ (chunks : List (List Nat)) (e : H264UnitExtractor)
    (u : List Nat), u ∈ (processChunks e chunks).2 →
    (u.take 4 = [0, 0, 0, 1] ∨ u.take 4 = [0, 0, 1, 0]) ∧ 4 ≤ u.length := by
  intro chunks
  induction chunks with
  | nil =>
    intro e u h
    exact absurd h (by simp [processChunks])
  | cons c cs ih =>
    intro e u h
    rw [processChunks] at h
    dsimp only at h
    rw [List.mem_append] at h
    rcases h with h | h
    · rw [H264UnitExtractor.push] at h
      dsimp only at h
      rw [pushCore_eq] at h
      exact emitUnits_shape _ _ u h
    · exact ih _ u h

/-- Every unit the extractor ever emits — any chunking, soft-cap trimming
included — begins with `00 00 00 01` or `00 00 01 00` and has ≥ 4 bytes. -/
theorem runAll_shape (chunks : List (List Nat)) (u : List Nat)
    (h : u ∈ runAll chunks) :
    (u.take 4 = [0, 0, 0, 1] ∨ u.take 4 = [0, 0, 1, 0]) ∧ 4 ≤ u.length := by
  rw [runAll] at h
  rw [List.mem_append] at h
  rcases h with h | h
  · exact processChunks_shape chunks _ u h
  · obtain ⟨h4, h5⟩ := flush_shape _ u h
    exact ⟨Or.inl h4, by omega⟩

theorem foldGop_snoc (us : List (List Nat)) (u : List Nat) :
    foldGop (us ++ [u]) = updateGopCache (foldGop us) u := by
  rw [foldGop, foldGop, List.foldl_append]
  rfl

theorem gop_upd_7 (s : GopState) (u : List Nat) (h : nalType u = 7) :
    updateGopCache s u = { s with last_sps := u } := by
  rw [updateGopCache, if_pos h]

theorem gop_upd_8 (s : GopState) (u : List Nat) (h : nalType u = 8) :
    updateGopCache s u = { s with last_pps := u } := by
  rw [updateGopCache, if_neg (by omega), if_pos h]

theorem gop_upd_5 (s : GopState) (u : List Nat) (h : nalType u = 5) :
    updateGopCache s u =
      { s with
        gop_nals := optNal s.last_sps ++ optNal s.last_pps ++ [u],
        gop_bytes := (if s.last_sps ≠ [] then s.last_sps.length else 0) +
          (if s.last_pps ≠ [] then s.last_pps.length else 0) + u.length,
        gop_has_idr := true } := by
  rw [updateGopCache, if_neg (by omega), if_neg (by omega), if_pos h]
  rw [GopState.mk.injEq]
  refine ⟨rfl, rfl, ?_, rfl, rfl⟩
  by_cases hs : s.last_sps ≠ []
  · by_cases hp : s.last_pps ≠ []
    · simp [optNal, hs, hp]
    · simp [optNal, hs, hp]
  · by_cases hp : s.last_pps ≠ []
    · simp [optNal, hs, hp]
    · simp [optNal, hs, hp]

theorem gop_upd_1_cached (s : GopState) (u : List Nat) (h : nalType u = 1)
    (hidr : s.gop_has_idr = true)
    (hsz : ¬(MAX_GOP_BYTES < s.gop_bytes + u.length)) :
    updateGopCache s u =
      { s with gop_nals := s.gop_nals ++ [u], gop_bytes := s.gop_bytes + u.length } := by
  rw [updateGopCache, if_neg (by omega), if_neg (by omega), if_neg (by omega), if_pos h,
    if_pos hidr, if_neg hsz]

theorem gop_upd_1_overflow (s : GopState) (u : List Nat) (h : nalType u = 1)
    (hidr : s.gop_has_idr = true)
    (hsz : MAX_GOP_BYTES < s.gop_bytes + u.length) :
    updateGopCache s u =
      { s with gop_nals := [], gop_bytes := 0, gop_has_idr := false } := by
  rw [updateGopCache, if_neg (by omega), if_neg (by omega), if_neg (by omega), if_pos h,
    if_pos hidr, if_pos hsz]

theorem gop_upd_1_uncached (s : GopState) (u : List Nat) (h : nalType u = 1)
    (hidr : s.gop_has_idr = false) : updateGopCache s u = s := by
  rw [updateGopCache, if_neg (by omega), if_neg (by omega), if_neg (by omega), if_pos h,
    if_neg (by rw [hidr]; exact Bool.false_ne_true)]

theorem gop_upd_other (s : GopState) (u : List Nat) (h7 : nalType u ≠ 7)
    (h8 : nalType u ≠ 8) (h5 : nalType u ≠ 5) (h1 : nalType u ≠ 1) :
    updateGopCache s u = s := by
  rw [updateGopCache, if_neg h7, if_neg h8, if_neg h5, if_neg h1]

/-- `last_sps` is empty or holds an SPS unit; `last_pps` likewise. -/
theorem last_params_typed (us : List (List Nat)) :
    ((foldGop us).last_sps = [] ∨ nalType (foldGop us).last_sps = 7) ∧
      ((foldGop us).last_pps = [] ∨ nalType (foldGop us).last_pps = 8) := by
  induction us using List.reverseRecOn with
  | nil => exact ⟨Or.inl rfl, Or.inl rfl⟩
  | append_singleton us u ih =>
    rw [foldGop_snoc]
    by_cases h7 : nalType u = 7
    · rw [gop_upd_7 _ _ h7]
      exact ⟨Or.inr h7, ih.2⟩
    · by_cases h8 : nalType u = 8
      · rw [gop_upd_8 _ _ h8]
        exact ⟨ih.1, Or.inr h8⟩
      · by_cases h5 : nalType u = 5
        · rw [gop_upd_5 _ _ h5]
          exact ih
        · by_cases h1 : nalType u = 1
          · by_cases hidr : (foldGop us).gop_has_idr = true
            · by_cases hsz : MAX_GOP_BYTES < (foldGop us).gop_bytes + u.length
              · rw [gop_upd_1_overflow _ _ h1 hidr hsz]
                exact ih
              · rw [gop_upd_1_cached _ _ h1 hidr hsz]
                exact ih
            · rw [gop_upd_1_uncached _ _ h1 (Bool.not_eq_true _ ▸ hidr)]
              exact ih
          · rw [gop_upd_other _ _ h7 h8 h5 h1]
            exact ih

theorem nalType_nil : nalType [] = 0 := by decide

/-- Once the history contains an SPS, `last_sps` is nonempty (same for
PPS/`last_pps`). -/
theorem last_sps_seen (us : List (List Nat)) (h : ∃ u ∈ us, nalType u = 7) :
    (foldGop us).last_sps ≠ [] := by
  induction us using List.reverseRecOn with
  | nil => simp at h
  | append_singleton us u ih =>
    rw [foldGop_snoc]
    by_cases h7 : nalType u = 7
    · rw [gop_upd_7 _ _ h7]
      intro hnil
      dsimp only at hnil
      rw [hnil] at h7
      rw [nalType_nil] at h7
      omega
    · have hus : ∃ v ∈ us, nalType v = 7 := by
        obtain ⟨v, hv, hvt⟩ := h
        rw [List.mem_append] at hv
        rcases hv with hv | hv
        · exact ⟨v, hv, hvt⟩
        · rw [List.mem_singleton] at hv
          subst hv
          exact absurd hvt h7
      have := ih hus
      by_cases h8 : nalType u = 8
      · rw [gop_upd_8 _ _ h8]
        exact this
      · by_cases h5 : nalType u = 5
        · rw [gop_upd_5 _ _ h5]
          exact this
        · by_cases h1 : nalType u = 1
          · by_cases hidr : (foldGop us).gop_has_idr = true
            · by_cases hsz : MAX_GOP_BYTES < (foldGop us).gop_bytes + u.length
              · rw [gop_upd_1_overflow _ _ h1 hidr hsz]
                exact this
              · rw [gop_upd_1_cached _ _ h1 hidr hsz]
                exact this
            · rw [gop_upd_1_uncached _ _ h1 (Bool.not_eq_true _ ▸ hidr)]
              exact this
          · rw [gop_upd_other _ _ h7 h8 h5 h1]
            exact this

theorem last_pps_seen (us : List (List Nat)) (h : ∃ u ∈ us, nalType u = 8) :
    (foldGop us).last_pps ≠ [] := by
  induction us using List.reverseRecOn with
  | nil => simp at h
  | append_singleton us u ih =>
    rw [foldGop_snoc]
    by_cases h8 : nalType u = 8
    · rw [gop_upd_8 _ _ h8]
      intro hnil
      dsimp only at hnil
      rw [hnil] at h8
      rw [nalType_nil] at h8
      omega
    · have hus : ∃ v ∈ us, nalType v = 8 := by
        obtain ⟨v, hv, hvt⟩ := h
        rw [List.mem_append] at hv
        rcases hv with hv | hv
        · exact ⟨v, hv, hvt⟩
        · rw [List.mem_singleton] at hv
          subst hv
          exact absurd hvt h8
      have := ih hus
      by_cases h7 : nalType u = 7
      · rw [gop_upd_7 _ _ h7]
        exact this
      · by_cases h5 : nalType u = 5
        · rw [gop_upd_5 _ _ h5]
          exact this
        · by_cases h1 : nalType u = 1
          · by_cases hidr : (foldGop us).gop_has_idr = true
            · by_cases hsz : MAX_GOP_BYTES < (foldGop us).gop_bytes + u.length
              · rw [gop_upd_1_overflow _ _ h1 hidr hsz]
                exact this
              · rw [gop_upd_1_cached _ _ h1 hidr hsz]
                exact this
            · rw [gop_upd_1_uncached _ _ h1 (Bool.not_eq_true _ ▸ hidr)]
              exact this
          · rw [gop_upd_other _ _ h7 h8 h5 h1]
            exact this

theorem GopTraceAt_snoc {us : List (List Nat)} {g : List (List Nat)}
    (u : List Nat) (h : GopTraceAt us g) : GopTraceAt (us ++ [u]) g := by
  obtain ⟨i, hi, hty, rest, hg, hrest⟩ := h
  have hi2 : i < (us ++ [u]).length := by
    rw [List.length_append]
    simp only [List.length_singleton]
    omega
  refine ⟨i, hi2, ?_, rest, ?_, hrest⟩
  · rw [List.getElem_append_left hi]
    exact hty
  · rw [List.getElem_append_left hi,
      List.take_append_of_le_length (le_of_lt hi)]
    exact hg

theorem GopTraceAt_extend {us : List (List Nat)} {g : List (List Nat)}
    {u : List Nat} (h : GopTraceAt us g) (h1 : nalType u = 1) :
    GopTraceAt (us ++ [u]) (g ++ [u]) := by
  obtain ⟨i, hi, hty, rest, hg, hrest⟩ := h
  have hi2 : i < (us ++ [u]).length := by
    rw [List.length_append]
    simp only [List.length_singleton]
    omega
  refine ⟨i, hi2, ?_, rest ++ [u], ?_, ?_⟩
  · rw [List.getElem_append_left hi]
    exact hty
  · rw [List.getElem_append_left hi,
      List.take_append_of_le_length (le_of_lt hi), hg]
    simp
  · intro v hv
    rw [List.mem_append] at hv
    rcases hv with hv | hv
    · exact hrest v hv
    · rw [List.mem_singleton] at hv
      subst hv
      exact h1

theorem GopTraceAt_new {us : List (List Nat)} {u : List Nat}
    (h5 : nalType u = 5) :
    GopTraceAt (us ++ [u])
      (optNal (foldGop us).last_sps ++ optNal (foldGop us).last_pps ++ [u]) := by
  have hi2 : us.length < (us ++ [u]).length := by
    rw [List.length_append]
    simp only [List.length_singleton]
    omega
  refine ⟨us.length, hi2, ?_, [], ?_, by simp⟩
  · rw [List.getElem_concat_length us u us.length rfl]
    exact h5
  · rw [List.getElem_concat_length us u us.length rfl,
      List.take_append_of_le_length (le_refl _), List.take_length]

/-- Trace form of the GOP head invariant: whenever the cache holds an IDR,
its contents are the (possibly absent) `last_sps`/`last_pps` as of the
moment some IDR of the history was processed, that IDR, and non-IDR slices
appended since. -/
theorem gop_trace (us : List (List Nat)) (h : (foldGop us).gop_has_idr = true) :
    GopTraceAt us (foldGop us).gop_nals := by
  induction us using List.reverseRecOn with
  | nil => exact absurd h (by decide)
  | append_singleton us u ih =>
    rw [foldGop_snoc] at h ⊢
    by_cases h7 : nalType u = 7
    · rw [gop_upd_7 _ _ h7] at h ⊢
      exact GopTraceAt_snoc u (ih h)
    · by_cases h8 : nalType u = 8
      · rw [gop_upd_8 _ _ h8] at h ⊢
        exact GopTraceAt_snoc u (ih h)
      · by_cases h5 : nalType u = 5
        · rw [gop_upd_5 _ _ h5]
          exact GopTraceAt_new h5
        · by_cases h1 : nalType u = 1
          · by_cases hidr : (foldGop us).gop_has_idr = true
            · by_cases hsz : MAX_GOP_BYTES < (foldGop us).gop_bytes + u.length
              · rw [gop_upd_1_overflow _ _ h1 hidr hsz] at h
                exact absurd h (by simp)
              · rw [gop_upd_1_cached _ _ h1 hidr hsz]
                exact GopTraceAt_extend (ih hidr) h1
            · rw [gop_upd_1_uncached _ _ h1 (Bool.not_eq_true _ ▸ hidr)] at h
              exact absurd h hidr
          · rw [gop_upd_other _ _ h7 h8 h5 h1] at h ⊢
            exact GopTraceAt_snoc u (ih h)

/-- Once an IDR has been seen (`got_idr`), the loop forwards everything
verbatim until the sentinel. -/
theorem deliverLoop_gotIdr (ls lp : List Nat) (s p : Bool) :
    ∀ items, deliverLoop ls lp true s p items =
      items.takeWhile (fun u => u ≠ [])
  | [] => rfl
  | nal :: rest => by
    rw [deliverLoop, List.takeWhile_cons]
    by_cases hn : nal = []
    · rw [if_pos hn, if_neg (by simp [hn])]
    · rw [if_neg hn, if_pos rfl, if_pos (by simp [hn]),
        deliverLoop_gotIdr ls lp s p rest]

/-- Sync-up mode: if both parameter sets are known to the session, then
whatever the queue holds, the first IDR the loop forwards is preceded by an
SPS (unless one was already forwarded) and a PPS (likewise). -/
theorem deliverLoop_syncup (ls lp : List Nat) (hls : ls ≠ [])
    (hlst : nalType ls = 7) (hlp : lp ≠ []) (hlpt : nalType lp = 8) :
    ∀ (items : List (List Nat)) (sS sP : Bool) (pre idr post : _),
    deliverLoop ls lp false sS sP items = pre ++ idr :: post →
    nalType idr = 5 → (∀ u ∈ pre, nalType u ≠ 5) →
    (sS = false → ∃ u ∈ pre, nalType u = 7) ∧
      (sP = false → ∃ u ∈ pre, nalType u = 8)
  | [], sS, sP, pre, idr, post => by
    intro hout _ _
    rw [deliverLoop] at hout
    exact absurd hout.symm (by simp)
  | nal :: rest, sS, sP, pre, idr, post => by
    intro hout hidr hpre
    rw [deliverLoop] at hout
    by_cases hn : nal = []
    · rw [if_pos hn] at hout
      exact absurd hout.symm (by simp)
    rw [if_neg hn, if_neg Bool.false_ne_true] at hout
    by_cases h7 : nalType nal = 7
    · rw [if_pos h7] at hout
      by_cases hsS : sS = false
      · rw [if_pos hsS] at hout
        match pre, hout with
        | [], hout => 
          injection hout with e1 _
          rw [← e1] at hidr
          omega
        | q :: pre2, hout =>
          injection hout with e1 e2
          have ihres := deliverLoop_syncup ls lp hls hlst hlp hlpt rest true sP
            pre2 idr post e2 hidr (fun u hu => hpre u (List.mem_cons_of_mem q hu))
          subst e1
          refine ⟨fun _ => ⟨nal, by simp, h7⟩, fun hp => ?_⟩
          obtain ⟨u, hu, hut⟩ := ihres.2 hp
          exact ⟨u, List.mem_cons_of_mem nal hu, hut⟩
      · rw [if_neg hsS] at hout
        exact deliverLoop_syncup ls lp hls hlst hlp hlpt rest sS sP
          pre idr post hout hidr hpre
    · rw [if_neg h7] at hout
      by_cases h8 : nalType nal = 8
      · rw [if_pos h8] at hout
        by_cases hsP : sP = false
        · rw [if_pos hsP] at hout
          match pre, hout with
          | [], hout =>
            injection hout with e1 _
            rw [← e1] at hidr
            omega
          | q :: pre2, hout =>
            injection hout with e1 e2
            have ihres := deliverLoop_syncup ls lp hls hlst hlp hlpt rest sS true
              pre2 idr post e2 hidr (fun u hu => hpre u (List.mem_cons_of_mem q hu))
            subst e1
            refine ⟨fun hs => ?_, fun _ => ⟨nal, by simp, h8⟩⟩
            obtain ⟨u, hu, hut⟩ := ihres.1 hs
            exact ⟨u, List.mem_cons_of_mem nal hu, hut⟩
        · rw [if_neg hsP] at hout
          exact deliverLoop_syncup ls lp hls hlst hlp hlpt rest sS sP
            pre idr post hout hidr hpre
      · rw [if_neg h8] at hout
        by_cases h5 : nalType nal = 5
        · rw [if_pos h5] at hout
          by_cases hsS : sS = false
          · by_cases hsP : sP = false
            · rw [if_pos ⟨hsS, hls⟩, if_pos ⟨hsP, hlp⟩] at hout
              -- out = ls :: lp :: nal :: _
              match pre, hout with
              | [], hout =>
                injection hout with e1 _
                rw [← e1] at hidr
                omega
              | [q], hout =>
                injection hout with e1 hout
                injection hout with e2 _
                rw [← e2] at hidr
                omega
              | q1 :: q2 :: pre3, hout =>
                injection hout with e1 hout
                injection hout with e2 hout
                subst e1
                subst e2
                match pre3, hout with
                | [], _ =>
                  exact ⟨fun _ => ⟨ls, by simp, hlst⟩, fun _ => ⟨lp, by simp, hlpt⟩⟩
                | q3 :: pre4, hout =>
                  injection hout with e3 _
                  have : nalType nal ≠ 5 := by
                    have := hpre q3 (by simp)
                    rw [e3]
                    exact this
                  exact absurd h5 this
            · rw [if_pos ⟨hsS, hls⟩,
                if_neg (by intro hcon; exact hsP hcon.1)] at hout
              simp only [List.append_nil, List.nil_append] at hout
              match pre, hout with
              | [], hout =>
                injection hout with e1 _
                rw [← e1] at hidr
                omega
              | q1 :: pre2, hout =>
                injection hout with e1 hout
                subst e1
                match pre2, hout with
                | [], _ => exact ⟨fun _ => ⟨ls, by simp, hlst⟩, fun hp => absurd hp hsP⟩
                | q2 :: pre3, hout =>
                  injection hout with e2 _
                  have : nalType nal ≠ 5 := by
                    have := hpre q2 (by simp)
                    rw [e2]
                    exact this
                  exact absurd h5 this
          · by_cases hsP : sP = false
            · rw [if_neg (by intro hcon; exact hsS hcon.1), if_pos ⟨hsP, hlp⟩] at hout
              simp only [List.append_nil, List.nil_append] at hout
              match pre, hout with
              | [], hout =>
                injection hout with e1 _
                rw [← e1] at hidr
                omega
              | q1 :: pre2, hout =>
                injection hout with e1 hout
                subst e1
                match pre2, hout with
                | [], _ => exact ⟨fun hs => absurd hs hsS, fun _ => ⟨lp, by simp, hlpt⟩⟩
                | q2 :: pre3, hout =>
                  injection hout with e2 _
                  have : nalType nal ≠ 5 := by
                    have := hpre q2 (by simp)
                    rw [e2]
                    exact this
                  exact absurd h5 this
            · rw [if_neg (by intro hcon; exact hsS hcon.1),
                if_neg (by intro hcon; exact hsP hcon.1)] at hout
              simp only [List.append_nil, List.nil_append] at hout
              match pre, hout with
              | [], _ => exact ⟨fun hs => absurd hs hsS, fun hp => absurd hp hsP⟩
              | q1 :: pre2, hout =>
                injection hout with e1 _
                have : nalType nal ≠ 5 := by
                  have := hpre q1 (by simp)
                  rw [e1]
                  exact this
                exact absurd h5 this
        · rw [if_neg h5] at hout
          exact deliverLoop_syncup ls lp hls hlst hlp hlpt rest sS sP
            pre idr post hout hidr hpre

/-- Sync-up filtering: while only non-IDR, non-sentinel items have been
dequeued, the loop's output so far contains only SPS and PPS units — at
most one of each, none at all for a kind whose flag was already set — and
the loop continues on the remaining items with updated flags. -/
theorem deliverLoop_filter (ls lp : List Nat) :
    ∀ (pre : List (List Nat)) (sS sP : Bool),
    (∀ u ∈ pre, nalType u ≠ 5 ∧ u ≠ []) →
    ∀ rest, ∃ preOut sS2 sP2,
      deliverLoop ls lp false sS sP (pre ++ rest) =
        preOut ++ deliverLoop ls lp false sS2 sP2 rest ∧
      (∀ u ∈ preOut, nalType u = 7 ∨ nalType u = 8) ∧
      (preOut.countP (fun u => nalType u = 7) ≤ if sS then 0 else 1) ∧
      (preOut.countP (fun u => nalType u = 8) ≤ if sP then 0 else 1)
  | [], sS, sP => by
    intro _ rest
    exact ⟨[], sS, sP, rfl, by simp, by simp, by simp⟩
  | nal :: pre2, sS, sP => by
    intro hpre rest
    obtain ⟨h5, hn⟩ := hpre nal (by simp)
    have hpre2 : ∀ u ∈ pre2, nalType u ≠ 5 ∧ u ≠ [] :=
      fun u hu => hpre u (List.mem_cons_of_mem nal hu)
    rw [List.cons_append, deliverLoop, if_neg hn, if_neg Bool.false_ne_true,
      if_neg h5]
    by_cases h7 : nalType nal = 7
    · rw [if_pos h7]
      by_cases hsS : sS = false
      · rw [if_pos hsS]
        obtain ⟨preOut, s2, p2, heq, hmem, hc7, hc8⟩ :=
          deliverLoop_filter ls lp pre2 true sP hpre2 rest
        subst hsS
        refine ⟨nal :: preOut, s2, p2, by rw [heq]; rfl, ?_, ?_, ?_⟩
        · intro u hu
          rcases List.mem_cons.mp hu with rfl | hu
          · exact Or.inl h7
          · exact hmem u hu
        · have h0 : List.countP (fun u => decide (nalType u = 7)) preOut = 0 :=
            Nat.le_zero.mp (by simpa using hc7)
          simp [List.countP_cons, h7, h0]
        · simpa [List.countP_cons, h7] using hc8
      · rw [if_neg hsS]
        obtain ⟨preOut, s2, p2, heq, hmem, hc7, hc8⟩ :=
          deliverLoop_filter ls lp pre2 sS sP hpre2 rest
        exact ⟨preOut, s2, p2, heq, hmem, hc7, hc8⟩
    · rw [if_neg h7]
      by_cases h8 : nalType nal = 8
      · rw [if_pos h8]
        by_cases hsP : sP = false
        · rw [if_pos hsP]
          obtain ⟨preOut, s2, p2, heq, hmem, hc7, hc8⟩ :=
            deliverLoop_filter ls lp pre2 sS true hpre2 rest
          subst hsP
          refine ⟨nal :: preOut, s2, p2, by rw [heq]; rfl, ?_, ?_, ?_⟩
          · intro u hu
            rcases List.mem_cons.mp hu with rfl | hu
            · exact Or.inr h8
            · exact hmem u hu
          · simpa [List.countP_cons, h8] using hc7
          · have h0 : List.countP (fun u => decide (nalType u = 8)) preOut = 0 :=
              Nat.le_zero.mp (by simpa using hc8)
            simp [List.countP_cons, h8, h0]
        · rw [if_neg hsP]
          obtain ⟨preOut, s2, p2, heq, hmem, hc7, hc8⟩ :=
            deliverLoop_filter ls lp pre2 sS sP hpre2 rest
          exact ⟨preOut, s2, p2, heq, hmem, hc7, hc8⟩
      · rw [if_neg h8]
        obtain ⟨preOut, s2, p2, heq, hmem, hc7, hc8⟩ :=
          deliverLoop_filter ls lp pre2 sS sP hpre2 rest
        exact ⟨preOut, s2, p2, heq, hmem, hc7, hc8⟩

theorem decodable_at (us : List (List Nat)) (h : decodableHistory us = true)
    (i : Nat) (hi : i < us.length) (h5 : nalType us[i] = 5) :
    (∃ u ∈ us.take i, nalType u = 7) ∧ ∃ u ∈ us.take i, nalType u = 8 := by
  rw [decodableHistory, List.all_eq_true] at h
  have hh := h i (List.mem_range.mpr hi)
  rw [List.getD_eq_getElem us [] hi, if_pos h5, Bool.and_eq_true] at hh
  obtain ⟨h7, h8⟩ := hh
  rw [List.any_eq_true] at h7 h8
  constructor
  · obtain ⟨u, hu, hu7⟩ := h7
    exact ⟨u, hu, by simpa using hu7⟩
  · obtain ⟨u, hu, hu8⟩ := h8
    exact ⟨u, hu, by simpa using hu8⟩

/-- `push` when the appended chunk overflows the soft cap: the oldest bytes
are trimmed before scanning. -/
theorem push_big (e : H264UnitExtractor) (data : List Nat) (hne : data ≠ [])
    (hover : e.maxBuffer < (e.buf ++ data).length) :
    e.push data =
      ({ e with
          buf := (pushCore e.maxNal
            ((e.buf ++ data).drop ((e.buf ++ data).length - e.maxBuffer))).2 },
        (pushCore e.maxNal
          ((e.buf ++ data).drop ((e.buf ++ data).length - e.maxBuffer))).1) := by
  rw [H264UnitExtractor.push, if_neg hne, if_pos hover]

/-- `push` when the appended chunk stays under the soft cap. -/
theorem push_small (e : H264UnitExtractor) (data : List Nat) (hne : data ≠ [])
    (hle : ¬e.maxBuffer < (e.buf ++ data).length) :
    e.push data =
      ({ e with buf := (pushCore e.maxNal (e.buf ++ data)).2 },
        (pushCore e.maxNal (e.buf ++ data)).1) := by
  rw [H264UnitExtractor.push, if_neg hne, if_neg hle]

/-- `_cleanup_stale_lock` leaves the world alone when the recorded PID is
alive (`os.kill(pid, 0)` succeeds). -/
theorem cleanup_alive (w : LockWorld) (hpid : w.lockPid ≠ none)
    (halive : w.alive = KillRes.ok) : cleanupStaleLock w = w := by
  rw [cleanupStaleLock]
  by_cases hle : w.lockExists = false
  · rw [if_pos hle]
  · rw [if_neg hle]
    rcases hp : w.lockPid with _ | pid
    · exact absurd hp hpid
    · rw [halive]

/-- `_cleanup_stale_lock` deletes both files when the lock exists but the
PID is unreadable or dead. -/
theorem cleanup_dead (w : LockWorld) (hle : w.lockExists = true)
    (hdead : w.lockPid = none ∨ w.alive ≠ KillRes.ok) :
    (cleanupStaleLock w).lockExists = false ∧
      (cleanupStaleLock w).socketExists = false := by
  rw [cleanupStaleLock, if_neg (by simp [hle])]
  rcases hp : w.lockPid with _ | pid
  · rcases ha : w.alive with _ | _ | _
    · exact ⟨rfl, rfl⟩
    · exact ⟨rfl, rfl⟩
    · exact ⟨rfl, rfl⟩
  · rcases ha : w.alive with _ | _ | _
    · rcases hdead with h | h
      · rw [hp] at h
        exact absurd h (by simp)
      · exact absurd ha h
    · exact ⟨rfl, rfl⟩
    · exact ⟨rfl, rfl⟩

/-- `_next_display_num` only returns numbers that are not in use. -/
theorem nextDisplayNum_not_mem (p : PoolModel) (n : Nat)
    (h : nextDisplayNum p = some n) : n ∉ p.displays := by
  rw [nextDisplayNum] at h
  have h2 := List.find?_some h
  simp only [Bool.not_eq_true'] at h2
  intro hmem
  have h3 := List.elem_eq_true_of_mem hmem
  rw [show p.displays.elem n = p.displays.contains n from rfl, h2] at h3
  exact Bool.false_ne_true h3

theorem erase_append_singleton {α : Type} [BEq α] [LawfulBEq α]
    (l : List α) (a : α) (h : a ∉ l) : (l ++ [a]).erase a = l := by
  rw [List.erase_append_right _ h, List.erase_cons_head, List.append_nil]

/-- When `allocate` raises, the displays table is untouched. -/
theorem alloc_fail_pool (p : PoolModel) (w : LockWorld) (xs : Bool)
    (h : (xvfbAllocate p w xs).display = none) :
    (xvfbAllocate p w xs).pool = p := by
  rw [xvfbAllocate] at h ⊢
  by_cases hcap : p.maxDisplays ≤ p.displays.length
  · rw [if_pos hcap]
  · rw [if_neg hcap] at h ⊢
    rcases hnn : nextDisplayNum p with _ | n
    · rfl
    · rw [hnn] at h
      dsimp only at h ⊢
      by_cases hxs : xs = true
      · rw [if_pos hxs] at h
        exact absurd h (by simp)
      · rw [if_neg hxs]

/-- When `allocate` succeeds, the chosen number is the next free one and is
appended to the displays table. -/
theorem alloc_ok_pool (p : PoolModel) (w : LockWorld) (xs : Bool) (n : Nat)
    (h : (xvfbAllocate p w xs).display = some n) :
    (xvfbAllocate p w xs).pool = { p with displays := p.displays ++ [n] } ∧
      nextDisplayNum p = some n := by
  rw [xvfbAllocate] at h ⊢
  by_cases hcap : p.maxDisplays ≤ p.displays.length
  · rw [if_pos hcap] at h
    exact absurd h (by simp)
  · rw [if_neg hcap] at h ⊢
    rcases hnn : nextDisplayNum p with _ | m
    · rw [hnn] at h
      exact absurd h (by simp)
    · rw [hnn] at h
      dsimp only at h ⊢
      by_cases hxs : xs = true
      · rw [if_pos hxs] at h ⊢
        dsimp only at h
        injection h with h
        subst h
        exact ⟨rfl, rfl⟩
      · rw [if_neg hxs] at h
        dsimp only at h
        exact absurd h (by simp)

/-- Every failing path of phases 2-3 of `create` runs the rollback: the
`sessions` and `displays` maps are untouched, a `browsers` entry made during
the attempt is removed again, and the display (if one was allocated) is
released back to the pool. -/
theorem createPhases_err (st : MgrState) (sid : String) (disp : Option Nat)
    (ug : Bool) (br : BrowserRes) (so : Bool) (h2 : sid ∉ st.browsers)
    (herr : (createPhases st sid disp ug br so).1 ≠ Except.ok ()) :
    (createPhases st sid disp ug br so).2.sessions = st.sessions ∧
      (createPhases st sid disp ug br so).2.browsers = st.browsers ∧
      (createPhases st sid disp ug br so).2.displays = st.displays ∧
      (createPhases st sid disp ug br so).2.pool =
        rollbackPool st.pool disp := by
  rw [createPhases] at herr ⊢
  by_cases hbf : ug = true ∧ (br = BrowserRes.launchFail ∨ br = BrowserRes.navFail)
  · rw [if_pos hbf]
    exact ⟨rfl, List.erase_of_not_mem h2, rfl, rfl⟩
  · rw [if_neg hbf] at herr ⊢
    by_cases hok : so = true
    · rw [if_pos hok] at herr
      exact absurd rfl herr
    · rw [if_neg hok] at herr ⊢
      by_cases hbok : ug = true ∧ br = BrowserRes.ok
      · rw [if_pos hbok]
        refine ⟨rfl, ?_, rfl, rfl⟩
        show (st.browsers ++ [sid]).erase sid = st.browsers
        exact erase_append_singleton _ _ h2
      · rw [if_neg hbok]
        exact ⟨rfl, List.erase_of_not_mem h2, rfl, rfl⟩

/-! ### An all-zero buffer contains no start code -/

theorem scanStarts_replicate_zero (n : Nat) :
    scanStarts (List.replicate n 0) = [] := by
  rw [scanStarts]
  refine scanAux_no_one _ 0 ?_
  intro x hx
  have := List.eq_of_mem_replicate hx
  omega

theorem emitUnits_replicate_zero (m n : Nat) :
    emitUnits m (List.replicate n 0) = [] := by
  rw [emitUnits, scanStarts_replicate_zero]
  rfl

theorem tailBuf_replicate_zero (n : Nat) :
    tailBuf (List.replicate n 0) = List.replicate n 0 := by
  rw [tailBuf, scanStarts_replicate_zero, if_pos (by decide)]

theorem pushCore_replicate_zero (m n : Nat) :
    pushCore m (List.replicate n 0) = ([], List.replicate n 0) := by
  rw [pushCore_eq, emitUnits_replicate_zero, tailBuf_replicate_zero]

theorem normalizeUnit_replicate_zero (n : Nat) :
    normalizeUnit (List.replicate n 0) = List.replicate n 0 := by
  have h3 : ¬((List.replicate n (0:Nat)).take 3 = [0, 0, 1] ∧
      ((List.replicate n (0:Nat)).drop 3).take 1 ≠ [0]) := by
    intro hcon
    have hc := hcon.1
    rw [List.take_replicate] at hc
    have h1 : (1:Nat) ∈ List.replicate (min 3 n) (0:Nat) := by
      rw [hc]
      decide
    have h0 := List.eq_of_mem_replicate h1
    omega
  rw [normalizeUnit, if_neg h3]

theorem flushOut_replicate_zero (n : Nat) (h : ¬n < 5) :
    flushOut (List.replicate n 0) = [] := by
  have h4 : ¬(normalizeUnit (List.replicate n (0:Nat))).take 4 = [0, 0, 0, 1] := by
    rw [normalizeUnit_replicate_zero, List.take_replicate]
    intro hcon
    have h1 : (1:Nat) ∈ List.replicate (min 4 n) (0:Nat) := by
      rw [hcon]
      decide
    have h0 := List.eq_of_mem_replicate h1
    omega
  rw [flushOut, if_neg (by rw [List.length_replicate]; exact h), if_neg h4]

/-! ## The claims -/

/-- C1 counterexample: on the input `00 00 00 01` the framing law promises
the single (normalised) unit `[p_0, |S|) = 00 00 00 01`, but the extractor
emits nothing — the scanner requires a byte after a 4-byte start code, and
`flush` drops any retained tail shorter than 5 bytes. -/
theorem claim_C1_cex : runAll [[0, 0, 0, 1]] ≠ claimedUnits [0, 0, 0, 1] := by
  rw [runAll_eq_codeUnits [[0, 0, 0, 1]] (by decide)]
  decide

/-- C1 (amended): for every byte sequence and every chunking of it whose
total length stays under the 512 KiB soft cap, the pushes followed by the
flush emit exactly the code-scan units `codeUnits`: one unit per adjacent
pair of scanned start codes, normalised, oversize units and
pre-first-start-code bytes dropped, plus the retained tail — the final
`[p_{k-1}, |S|)` unit — provided it is at least 5 bytes long and starts
with the 4-byte code after normalisation. -/
theorem claim_C1 (chunks : List (List Nat))
    (hcap : chunks.flatten.length ≤ 512 * 1024) :
    runAll chunks = codeUnits chunks.flatten :=
  runAll_eq_codeUnits chunks hcap

theorem claim_C1_witness :
    ([[0, 0, 1, 65, 0, 0, 1, 66]] : List (List Nat)).flatten.length ≤ 512 * 1024 ∧
      runAll [[0, 0, 1, 65, 0, 0, 1, 66]] =
        codeUnits ([[0, 0, 1, 65, 0, 0, 1, 66]] : List (List Nat)).flatten :=
  ⟨by decide, claim_C1 [[0, 0, 1, 65, 0, 0, 1, 66]] (by decide)⟩

/-- C2 counterexample: chunking is observable once the soft cap trims the
buffer.  Pushing `00 00 01 41 00 00 01 42 ++ 2^19 zero bytes` in one shot
trims away both start codes before scanning and emits nothing, while
pushing the 8 header bytes first emits the unit `00 00 00 01 41`. -/
theorem processChunks_one (e e2 : H264UnitExtractor) (c : List Nat)
    (out : List (List Nat)) (h : e.push c = (e2, out)) :
    processChunks e [c] = (e2, out ++ []) := by
  rw [processChunks, h]
  dsimp only
  rw [processChunks]

theorem processChunks_two (e e1 e2 : H264UnitExtractor) (c1 c2 : List Nat)
    (o1 o2 : List (List Nat)) (h1 : e.push c1 = (e1, o1))
    (h2 : e1.push c2 = (e2, o2)) :
    processChunks e [c1, c2] = (e2, o1 ++ (o2 ++ [])) := by
  rw [processChunks, h1]
  dsimp only
  rw [processChunks_one e1 e2 c2 o2 h2]

theorem runAll_two (c1 c2 : List Nat) (e1 e2 : H264UnitExtractor)
    (o1 o2 : List (List Nat)) (h1 : H264UnitExtractor.init.push c1 = (e1, o1))
    (h2 : e1.push c2 = (e2, o2)) :
    runAll [c1, c2] = o1 ++ (o2 ++ []) ++ flushOut e2.buf := by
  rw [runAll, processChunks_two _ _ _ _ _ _ _ h1 h2]
  dsimp only
  rw [flush_snd]

theorem runAll_one (c : List Nat) (e2 : H264UnitExtractor)
    (out : List (List Nat)) (h : H264UnitExtractor.init.push c = (e2, out)) :
    runAll [c] = out ++ [] ++ flushOut e2.buf := by
  rw [runAll, processChunks_one _ _ _ _ h]
  dsimp only
  rw [flush_snd]

theorem claim_C2_cex :
    runAll [[0, 0, 1, 65, 0, 0, 1, 66] ++ List.replicate (512 * 1024) 0] ≠
      runAll [[0, 0, 1, 65, 0, 0, 1, 66], List.replicate (512 * 1024) 0] := by
  have hAlen : ([0, 0, 1, 65, 0, 0, 1, 66] ++
      List.replicate (512 * 1024) (0:Nat)).length = 524296 := by
    rw [List.length_append, List.length_replicate]
    decide
  have hAne : ([0, 0, 1, 65, 0, 0, 1, 66] ++
      List.replicate (512 * 1024) (0:Nat)) ≠ [] := List.cons_ne_nil _ _
  have hover : H264UnitExtractor.init.maxBuffer <
      (H264UnitExtractor.init.buf ++
        ([0, 0, 1, 65, 0, 0, 1, 66] ++ List.replicate (512 * 1024) (0:Nat))).length := by
    show (512 * 1024 : Nat) <
      ([0, 0, 1, 65, 0, 0, 1, 66] ++ List.replicate (512 * 1024) (0:Nat)).length
    rw [hAlen]
    decide
  have hdropA : ([0, 0, 1, 65, 0, 0, 1, 66] ++
      List.replicate (512 * 1024) (0:Nat)).drop 8 = List.replicate (512 * 1024) 0 := by
    have h := List.drop_left ([0, 0, 1, 65, 0, 0, 1, 66] : List Nat)
      (List.replicate (512 * 1024) (0:Nat))
    rwa [show ([0, 0, 1, 65, 0, 0, 1, 66] : List Nat).length = 8 from rfl] at h
  have hargA : (H264UnitExtractor.init.buf ++
        ([0, 0, 1, 65, 0, 0, 1, 66] ++ List.replicate (512 * 1024) (0:Nat))).drop
      ((H264UnitExtractor.init.buf ++
        ([0, 0, 1, 65, 0, 0, 1, 66] ++ List.replicate (512 * 1024) (0:Nat))).length -
        H264UnitExtractor.init.maxBuffer) = List.replicate (512 * 1024) 0 := by
    rw [show (H264UnitExtractor.init.buf ++
        ([0, 0, 1, 65, 0, 0, 1, 66] ++ List.replicate (512 * 1024) (0:Nat))) =
        [0, 0, 1, 65, 0, 0, 1, 66] ++ List.replicate (512 * 1024) 0 from rfl]
    rw [hAlen, show H264UnitExtractor.init.maxBuffer = 512 * 1024 from rfl,
      show (524296 - 512 * 1024 : Nat) = 8 from rfl]
    exact hdropA
  have hpushA : H264UnitExtractor.init.push
      ([0, 0, 1, 65, 0, 0, 1, 66] ++ List.replicate (512 * 1024) 0) =
      ({ H264UnitExtractor.init with buf := List.replicate (512 * 1024) 0 }, []) := by
    rw [push_big H264UnitExtractor.init
      ([0, 0, 1, 65, 0, 0, 1, 66] ++ List.replicate (512 * 1024) 0) hAne hover]
    rw [hargA, pushCore_replicate_zero]
  have hL : runAll [[0, 0, 1, 65, 0, 0, 1, 66] ++ List.replicate (512 * 1024) 0] = [] := by
    rw [runAll_one _ _ _ hpushA]
    dsimp only
    rw [flushOut_replicate_zero _ (by decide)]
    rfl
  have hpush1 : H264UnitExtractor.init.push [0, 0, 1, 65, 0, 0, 1, 66] =
      ({ H264UnitExtractor.init with buf := [0, 0, 1, 66] }, [[0, 0, 0, 1, 65]]) := by
    rw [push_small H264UnitExtractor.init [0, 0, 1, 65, 0, 0, 1, 66]
      (by decide) (by decide)]
    rw [pushCore_eq]
    decide
  have h2len : (([0, 0, 1, 66] : List Nat) ++
      List.replicate (512 * 1024) (0:Nat)).length = 524292 := by
    rw [List.length_append, List.length_replicate]
    decide
  have h2ne : List.replicate (512 * 1024) (0:Nat) ≠ [] := by
    intro hc
    have hl := congrArg List.length hc
    rw [List.length_replicate, List.length_nil] at hl
    exact absurd hl (by decide)
  have hover2 : ({ H264UnitExtractor.init with buf := [0, 0, 1, 66] } :
      H264UnitExtractor).maxBuffer <
      (({ H264UnitExtractor.init with buf := [0, 0, 1, 66] } :
        H264UnitExtractor).buf ++ List.replicate (512 * 1024) (0:Nat)).length := by
    show (512 * 1024 : Nat) <
      (([0, 0, 1, 66] : List Nat) ++ List.replicate (512 * 1024) (0:Nat)).length
    rw [h2len]
    decide
  have hdrop2 : (([0, 0, 1, 66] : List Nat) ++
      List.replicate (512 * 1024) (0:Nat)).drop 4 = List.replicate (512 * 1024) 0 := by
    have h := List.drop_left ([0, 0, 1, 66] : List Nat)
      (List.replicate (512 * 1024) (0:Nat))
    rwa [show ([0, 0, 1, 66] : List Nat).length = 4 from rfl] at h
  have harg2 : (({ H264UnitExtractor.init with buf := [0, 0, 1, 66] } :
        H264UnitExtractor).buf ++ List.replicate (512 * 1024) (0:Nat)).drop
      ((({ H264UnitExtractor.init with buf := [0, 0, 1, 66] } :
        H264UnitExtractor).buf ++ List.replicate (512 * 1024) (0:Nat)).length -
        ({ H264UnitExtractor.init with buf := [0, 0, 1, 66] } :
          H264UnitExtractor).maxBuffer) = List.replicate (512 * 1024) 0 := by
    rw [show (({ H264UnitExtractor.init with buf := [0, 0, 1, 66] } :
        H264UnitExtractor).buf ++ List.replicate (512 * 1024) (0:Nat)) =
        ([0, 0, 1, 66] : List Nat) ++ List.replicate (512 * 1024) 0 from rfl]
    rw [h2len, show ({ H264UnitExtractor.init with buf := [0, 0, 1, 66] } :
        H264UnitExtractor).maxBuffer = 512 * 1024 from rfl,
      show (524292 - 512 * 1024 : Nat) = 4 from rfl]
    exact hdrop2
  have hpush2 : ({ H264UnitExtractor.init with buf := [0, 0, 1, 66] } :
      H264UnitExtractor).push (List.replicate (512 * 1024) 0) =
      ({ { H264UnitExtractor.init with buf := [0, 0, 1, 66] } with
          buf := List.replicate (512 * 1024) 0 }, []) := by
    rw [push_big ({ H264UnitExtractor.init with buf := [0, 0, 1, 66] })
      (List.replicate (512 * 1024) 0) h2ne hover2]
    rw [harg2, pushCore_replicate_zero]
  have hR : runAll [[0, 0, 1, 65, 0, 0, 1, 66], List.replicate (512 * 1024) 0] =
      [[0, 0, 0, 1, 65]] := by
    rw [runAll_two _ _ _ _ _ _ hpush1 hpush2]
    dsimp only
    rw [flushOut_replicate_zero _ (by decide)]
    rfl
  rw [hL, hR]
  decide

/-- C2 (amended): chunking independence holds as long as the whole input
fits under the 512 KiB soft cap, so that no trimming of oldest bytes
occurs: any partition then emits exactly what a single push of the whole
sequence emits. -/
theorem claim_C2 (chunks : List (List Nat))
    (hcap : chunks.flatten.length ≤ 512 * 1024) :
    runAll chunks = runAll [chunks.flatten] := by
  rw [runAll_eq_codeUnits chunks hcap,
    runAll_eq_codeUnits [chunks.flatten] (by simpa using hcap)]
  rw [show ([chunks.flatten] : List (List Nat)).flatten = chunks.flatten by simp]

theorem claim_C2_witness :
    ([[0, 0, 1, 65], [0, 0, 1, 66]] : List (List Nat)).flatten.length ≤ 512 * 1024 ∧
      runAll [[0, 0, 1, 65], [0, 0, 1, 66]] =
        runAll [([[0, 0, 1, 65], [0, 0, 1, 66]] : List (List Nat)).flatten] :=
  ⟨by decide, claim_C2 [[0, 0, 1, 65], [0, 0, 1, 66]] (by decide)⟩

/-- C3 counterexample: a session whose history is a lone IDR (no SPS or PPS
ever seen) caches that IDR; a subscriber replays the snapshot and receives
the IDR with no parameter sets before it. -/
theorem claim_C3_cex :
    ∃ pre idr post, subscribeYields (foldGop [[0, 0, 0, 1, 101]]) [] =
        pre ++ idr :: post ∧ nalType idr = 5 ∧ (∀ u ∈ pre, nalType u ≠ 5) ∧
      ¬∃ u ∈ pre, nalType u = 7 := by
  refine ⟨[], [0, 0, 0, 1, 101], [], ?_, by decide, by decide, by decide⟩
  decide

/-- C3 (amended): the decodability prefix holds for every subscriber —
whether it replays a GOP snapshot or syncs up on the live queue — provided
the broadcast history was decodable (each cached IDR preceded by parameter
sets) and both an SPS and a PPS were seen before the subscriber joined:
any first IDR in the yielded stream is preceded by an SPS and a PPS. -/
theorem claim_C3 (us vs pre post : List (List Nat)) (idr : List Nat)
    (hdec : decodableHistory us = true)
    (hsps : ∃ u ∈ us, nalType u = 7) (hpps : ∃ u ∈ us, nalType u = 8)
    (hout : subscribeYields (foldGop us) vs = pre ++ idr :: post)
    (hidr : nalType idr = 5) (hpre : ∀ u ∈ pre, nalType u ≠ 5) :
    (∃ u ∈ pre, nalType u = 7) ∧ ∃ u ∈ pre, nalType u = 8 := by
  have hls : (foldGop us).last_sps ≠ [] := last_sps_seen us hsps
  have hlp : (foldGop us).last_pps ≠ [] := last_pps_seen us hpps
  have hlst : nalType (foldGop us).last_sps = 7 :=
    (last_params_typed us).1.resolve_left hls
  have hlpt : nalType (foldGop us).last_pps = 8 :=
    (last_params_typed us).2.resolve_left hlp
  rw [subscribeYields] at hout
  by_cases hsnap : (foldGop us).gop_has_idr = true
  · rw [hsnap] at hout
    rw [if_pos rfl, deliverLoop_gotIdr] at hout
    obtain ⟨i, hi, h5i, rest, hg, hrest⟩ := gop_trace us hsnap
    obtain ⟨hsps_i, hpps_i⟩ := decodable_at us hdec i hi h5i
    have hlsi : (foldGop (us.take i)).last_sps ≠ [] := last_sps_seen _ hsps_i
    have hlpi : (foldGop (us.take i)).last_pps ≠ [] := last_pps_seen _ hpps_i
    have hlsit : nalType (foldGop (us.take i)).last_sps = 7 :=
      (last_params_typed _).1.resolve_left hlsi
    have hlpit : nalType (foldGop (us.take i)).last_pps = 8 :=
      (last_params_typed _).2.resolve_left hlpi
    rw [hg, optNal, optNal, if_pos hlsi, if_pos hlpi] at hout
    have hne5 : us[i] ≠ [] := by
      intro hnil
      rw [hnil, nalType_nil] at h5i
      exact absurd h5i (by decide)
    simp only [List.cons_append, List.nil_append, List.append_assoc] at hout
    rw [List.takeWhile_cons_of_pos (by simpa using hlsi),
      List.takeWhile_cons_of_pos (by simpa using hlpi),
      List.takeWhile_cons_of_pos (by simpa using hne5)] at hout
    rcases pre with _ | ⟨a, _ | ⟨b, pre2⟩⟩
    · rw [List.nil_append] at hout
      injection hout with h1 h2
      rw [← h1] at hidr
      exact absurd (hlsit.symm.trans hidr) (by decide)
    · simp only [List.cons_append, List.nil_append] at hout
      injection hout with h1 hrest2
      injection hrest2 with h2 h3
      rw [← h2] at hidr
      exact absurd (hlpit.symm.trans hidr) (by decide)
    · simp only [List.cons_append] at hout
      injection hout with h1 hrest2
      injection hrest2 with h2 h3
      exact ⟨⟨a, by simp, h1 ▸ hlsit⟩, ⟨b, by simp, h2 ▸ hlpit⟩⟩
  · have hf : (foldGop us).gop_has_idr = false := Bool.not_eq_true _ ▸ hsnap
    rw [hf] at hout
    simp only [Bool.false_eq_true, if_false, List.nil_append] at hout
    have h := deliverLoop_syncup (foldGop us).last_sps (foldGop us).last_pps
      hls hlst hlp hlpt vs false false pre idr post hout hidr hpre
    exact ⟨h.1 rfl, h.2 rfl⟩

theorem claim_C3_witness :
    decodableHistory [[0, 0, 0, 1, 103], [0, 0, 0, 1, 104], [0, 0, 0, 1, 101]] = true ∧
      ((∃ u ∈ ([[0, 0, 0, 1, 103], [0, 0, 0, 1, 104]] : List (List Nat)),
          nalType u = 7) ∧
        ∃ u ∈ ([[0, 0, 0, 1, 103], [0, 0, 0, 1, 104]] : List (List Nat)),
          nalType u = 8) :=
  ⟨by decide,
    claim_C3 [[0, 0, 0, 1, 103], [0, 0, 0, 1, 104], [0, 0, 0, 1, 101]] []
      [[0, 0, 0, 1, 103], [0, 0, 0, 1, 104]] [] [0, 0, 0, 1, 101]
      (by decide) (by decide) (by decide) (by decide) (by decide) (by decide)⟩

/-- C4 counterexample: after a lone IDR with no SPS/PPS ever seen, the GOP
cache holds an IDR but its first elements are not `[SPS, PPS, IDR]` — the
conditional appends skip the missing parameter sets. -/
theorem claim_C4_cex :
    (foldGop [[0, 0, 0, 1, 101]]).gop_has_idr = true ∧
      (foldGop [[0, 0, 0, 1, 101]]).gop_nals = [[0, 0, 0, 1, 101]] ∧
      nalType ((foldGop [[0, 0, 0, 1, 101]]).gop_nals.getD 0 []) ≠ 7 := by
  decide

/-- C4 (amended): whenever `gop_has_idr` holds, the cache contents are the
`last_sps`/`last_pps` current at the moment some IDR of the history was
processed — each included only when nonempty — followed by that IDR and
then only non-IDR slices appended since (`GopTraceAt`). -/
theorem claim_C4 (us : List (List Nat))
    (h : (foldGop us).gop_has_idr = true) :
    GopTraceAt us (foldGop us).gop_nals :=
  gop_trace us h

theorem claim_C4_witness :
    GopTraceAt [[0, 0, 0, 1, 103], [0, 0, 0, 1, 104], [0, 0, 0, 1, 101], [0, 0, 0, 1, 65]]
      (foldGop [[0, 0, 0, 1, 103], [0, 0, 0, 1, 104], [0, 0, 0, 1, 101],
        [0, 0, 0, 1, 65]]).gop_nals :=
  claim_C4 _ (by decide)

/-- C5 counterexample: the guard `nal[3:4] != b"\x00"` skips normalisation
when the byte after a 3-byte start code is `00`, so the unit
`00 00 01 00 41` is emitted with a 3-byte code. -/
theorem claim_C5_cex :
    ∃ u ∈ runAll [[0, 0, 1, 0, 65, 0, 0, 1, 66, 67]], u.take 4 ≠ [0, 0, 0, 1] := by
  rw [runAll_eq_codeUnits [[0, 0, 1, 0, 65, 0, 0, 1, 66, 67]] (by decide)]
  decide

/-- C5 (amended): every unit the extractor emits — for any input and any
chunking, pushes and flush alike — begins with `00 00 00 01`, or with
`00 00 01 00` in the one case the normalisation guard declines to rewrite
a 3-byte code (next byte `00`). -/
theorem claim_C5 (chunks : List (List Nat)) (u : List Nat)
    (h : u ∈ runAll chunks) :
    u.take 4 = [0, 0, 0, 1] ∨ u.take 4 = [0, 0, 1, 0] :=
  (runAll_shape chunks u h).1

theorem claim_C5_witness :
    [0, 0, 0, 1, 65] ∈ runAll [[0, 0, 1, 65], [0, 0, 1, 66]] ∧
      ([0, 0, 0, 1, 65].take 4 = [0, 0, 0, 1] ∨
        [0, 0, 0, 1, 65].take 4 = [0, 0, 1, 0]) := by
  have hmem : [0, 0, 0, 1, 65] ∈ runAll [[0, 0, 1, 65], [0, 0, 1, 66]] := by
    rw [runAll_eq_codeUnits [[0, 0, 1, 65], [0, 0, 1, 66]] (by decide)]
    decide
  exact ⟨hmem, claim_C5 [[0, 0, 1, 65], [0, 0, 1, 66]] [0, 0, 0, 1, 65] hmem⟩

/-- C9 counterexample: two adjacent 3-byte start codes make `push` emit the
bare normalised code `00 00 00 01` of length 4, on which `nal_type`
(`nal[4] & 0x1F`) would raise `IndexError`. -/
theorem claim_C9_cex :
    ∃ u ∈ runAll [[0, 0, 1, 0, 0, 1, 65]], u.length < 5 := by
  rw [runAll_eq_codeUnits [[0, 0, 1, 0, 0, 1, 65]] (by decide)]
  decide

/-- C9 (amended): every emitted unit has length at least 4 (not 5): the
start-code prefix is always there, but a bare start code can be emitted, so
`nal_type` is not always in bounds. -/
theorem claim_C9 (chunks : List (List Nat)) (u : List Nat)
    (h : u ∈ runAll chunks) : 4 ≤ u.length :=
  (runAll_shape chunks u h).2

theorem claim_C9_witness :
    [0, 0, 0, 1, 70] ∈ runAll [[0, 0, 1, 70], [0, 0, 1, 71]] ∧
      4 ≤ [0, 0, 0, 1, 70].length := by
  have hmem : [0, 0, 0, 1, 70] ∈ runAll [[0, 0, 1, 70], [0, 0, 1, 71]] := by
    rw [runAll_eq_codeUnits [[0, 0, 1, 70], [0, 0, 1, 71]] (by decide)]
    decide
  exact ⟨hmem, claim_C9 [[0, 0, 1, 70], [0, 0, 1, 71]] [0, 0, 0, 1, 70] hmem⟩

/-- C6 counterexample: when `create` raises because the session id already
exists, the `sessions` map still contains an entry for that id afterwards,
so "no entries for that session_id exist in any of the three maps" fails as
stated. -/
theorem claim_C6_cex :
    (managerCreate ⟨["s"], [], [], none⟩ "s" ⟨false, none, false, KillRes.noProc⟩
        true true BrowserRes.ok true).1 ≠ Except.ok () ∧
      "s" ∈ (managerCreate ⟨["s"], [], [], none⟩ "s"
        ⟨false, none, false, KillRes.noProc⟩ true true BrowserRes.ok true).2.sessions := by
  decide

/-- C6 (amended): atomic creation holds for a fresh session id — one with no
prior entry in any of the three maps: if `create` raises (display
allocation, browser launch/navigation, or session start failing), none of
the maps gains an entry for the id and the pool count is exactly what it
was before the call. -/
theorem claim_C6 (st : MgrState) (sid : String) (w : LockWorld)
    (xs ug : Bool) (br : BrowserRes) (so : Bool)
    (h1 : sid ∉ st.sessions) (h2 : sid ∉ st.browsers)
    (h3 : ∀ q ∈ st.displays, q.1 ≠ sid)
    (herr : (managerCreate st sid w xs ug br so).1 ≠ Except.ok ()) :
    sid ∉ (managerCreate st sid w xs ug br so).2.sessions ∧
      sid ∉ (managerCreate st sid w xs ug br so).2.browsers ∧
      (∀ q ∈ (managerCreate st sid w xs ug br so).2.displays, q.1 ≠ sid) ∧
      poolCount (managerCreate st sid w xs ug br so).2 = poolCount st := by
  have hc : st.sessions.contains sid = false := by
    rw [← Bool.not_eq_true]
    intro hcc
    exact h1 (List.mem_of_elem_eq_true hcc)
  rcases hpool : st.pool with _ | p
  · have hm : managerCreate st sid w xs ug br so =
        createPhases st sid none ug br so := by
      rw [managerCreate, if_neg (by rw [hc]; exact Bool.false_ne_true), hpool]
    rw [hm] at herr ⊢
    obtain ⟨e1, e2, e3, e4⟩ := createPhases_err st sid none ug br so h2 herr
    rw [e1, e2, e3]
    refine ⟨h1, h2, h3, ?_⟩
    rw [poolCount, poolCount, e4, hpool]
    rfl
  · have hm0 : managerCreate st sid w xs ug br so =
        (match (xvfbAllocate p w xs).display with
          | none => (Except.error CreateErr.allocFail,
              mgrRollback { st with pool := some (xvfbAllocate p w xs).pool } sid none)
          | some n => createPhases { st with pool := some (xvfbAllocate p w xs).pool }
              sid (some n) ug br so) := by
      rw [managerCreate, if_neg (by rw [hc]; exact Bool.false_ne_true), hpool]
    rcases hdisp : (xvfbAllocate p w xs).display with _ | n
    · have hap := alloc_fail_pool p w xs hdisp
      rw [hdisp] at hm0
      dsimp only at hm0
      rw [hap] at hm0
      rw [hm0]
      refine ⟨h1, ?_, h3, ?_⟩
      · show sid ∉ st.browsers.erase sid
        rw [List.erase_of_not_mem h2]
        exact h2
      · rw [poolCount, poolCount, hpool]
        rfl
    · obtain ⟨hap, hnn⟩ := alloc_ok_pool p w xs n hdisp
      have hnmem := nextDisplayNum_not_mem p n hnn
      rw [hdisp] at hm0
      dsimp only at hm0
      rw [hap] at hm0
      rw [hm0] at herr ⊢
      obtain ⟨e1, e2, e3, e4⟩ := createPhases_err
        { st with pool := some { p with displays := p.displays ++ [n] } } sid
        (some n) ug br so h2 herr
      rw [e1, e2, e3]
      refine ⟨h1, h2, h3, ?_⟩
      rw [poolCount, poolCount, e4, hpool]
      show ((p.displays ++ [n]).erase n).length = p.displays.length
      rw [erase_append_singleton _ _ hnmem]

theorem claim_C6_witness :
    "s" ∉ (managerCreate ⟨[], [], [], some ⟨100, 5, []⟩⟩ "s"
        ⟨false, none, false, KillRes.noProc⟩ false true BrowserRes.ok true).2.sessions ∧
      "s" ∉ (managerCreate ⟨[], [], [], some ⟨100, 5, []⟩⟩ "s"
        ⟨false, none, false, KillRes.noProc⟩ false true BrowserRes.ok true).2.browsers ∧
      (∀ q ∈ (managerCreate ⟨[], [], [], some ⟨100, 5, []⟩⟩ "s"
        ⟨false, none, false, KillRes.noProc⟩ false true BrowserRes.ok true).2.displays,
        q.1 ≠ "s") ∧
      poolCount (managerCreate ⟨[], [], [], some ⟨100, 5, []⟩⟩ "s"
        ⟨false, none, false, KillRes.noProc⟩ false true BrowserRes.ok true).2 =
        poolCount ⟨[], [], [], some ⟨100, 5, []⟩⟩ :=
  claim_C6 ⟨[], [], [], some ⟨100, 5, []⟩⟩ "s" ⟨false, none, false, KillRes.noProc⟩
    false true BrowserRes.ok true (by simp) (by simp) (by simp) (by decide)

/-- C7 counterexample: a subscriber queue already at capacity never
receives the end-of-stream sentinel — `put_nowait` raises `QueueFull` and
the exception is swallowed. -/
theorem claim_C7_cex :
    ∃ q ∈ (stopModel ⟨"streaming", [⟨1, [[1]]⟩]⟩).2, [] ∉ q.items := by
  decide

/-- C7 (amended): `stop` from "stopped"/"stopping" changes nothing;
otherwise it clears the subscriber set, reaches status "stopped", and every
queue subscribed at call time receives the sentinel — unless that queue was
bounded and already full, in which case it is left unchanged. -/
theorem claim_C7 (s : SessionCtl) :
    (s.status = "stopped" ∨ s.status = "stopping" →
      stopModel s = (s, s.subscribers)) ∧
    (¬(s.status = "stopped" ∨ s.status = "stopping") →
      (stopModel s).1.status = "stopped" ∧ (stopModel s).1.subscribers = [] ∧
      ∀ q ∈ s.subscribers,
        (¬(0 < q.maxsize ∧ q.maxsize ≤ q.items.length) →
          { q with items := q.items ++ [[]] } ∈ (stopModel s).2) ∧
        (0 < q.maxsize ∧ q.maxsize ≤ q.items.length → q ∈ (stopModel s).2)) := by
  constructor
  · intro h
    rw [stopModel, if_pos h]
  · intro h
    rw [stopModel, if_neg h]
    refine ⟨rfl, rfl, ?_⟩
    intro q hq
    constructor
    · intro hfull
      have hput : putNowaitOrDrop q [] = { q with items := q.items ++ [[]] } := by
        rw [putNowaitOrDrop, if_neg hfull]
      rw [← hput]
      exact List.mem_map_of_mem _ hq
    · intro hfull
      have hput : putNowaitOrDrop q [] = q := by
        rw [putNowaitOrDrop, if_pos hfull]
      rw [← hput]
      exact List.mem_map_of_mem _ hq

theorem claim_C7_witness :
    (stopModel ⟨"streaming", [⟨0, [[7]]⟩]⟩).1.status = "stopped" ∧
      (stopModel ⟨"streaming", [⟨0, [[7]]⟩]⟩).1.subscribers = [] ∧
      ∀ q ∈ (⟨"streaming", [⟨0, [[7]]⟩]⟩ : SessionCtl).subscribers,
        (¬(0 < q.maxsize ∧ q.maxsize ≤ q.items.length) →
          { q with items := q.items ++ [[]] } ∈
            (stopModel ⟨"streaming", [⟨0, [[7]]⟩]⟩).2) ∧
        (0 < q.maxsize ∧ q.maxsize ≤ q.items.length →
          q ∈ (stopModel ⟨"streaming", [⟨0, [[7]]⟩]⟩).2) :=
  (claim_C7 ⟨"streaming", [⟨0, [[7]]⟩]⟩).2 (by decide)

/-- C8 counterexample: with a lock file whose PID is alive, `allocate` does
not abort — it still spawns a display server on that id (and even succeeds
when the readiness poll passes). -/
theorem claim_C8_cex :
    (xvfbAllocate ⟨100, 5, []⟩ ⟨true, some 42, true, KillRes.ok⟩ true).spawned = true ∧
      (xvfbAllocate ⟨100, 5, []⟩ ⟨true, some 42, true, KillRes.ok⟩ true).display =
        some 100 := by
  decide

/-- C8 (amended): once an id is chosen, the server is spawned
unconditionally.  A live recorded PID only makes the cleanup keep both
files (the world at spawn time is unchanged); a missing/unreadable PID or a
dead process gets both the lock and the socket deleted before the spawn. -/
theorem claim_C8 (p : PoolModel) (w : LockWorld) (xs : Bool) (n : Nat)
    (hcap : ¬p.maxDisplays ≤ p.displays.length)
    (hn : nextDisplayNum p = some n) :
    (xvfbAllocate p w xs).spawned = true ∧
      (w.lockPid ≠ none → w.alive = KillRes.ok →
        (xvfbAllocate p w xs).worldAtSpawn = w) ∧
      (w.lockExists = true → (w.lockPid = none ∨ w.alive ≠ KillRes.ok) →
        (xvfbAllocate p w xs).worldAtSpawn.lockExists = false ∧
          (xvfbAllocate p w xs).worldAtSpawn.socketExists = false) := by
  rw [xvfbAllocate, if_neg hcap, hn]
  dsimp only
  by_cases hxs : xs = true
  · rw [if_pos hxs]
    exact ⟨rfl, fun hpid halive => cleanup_alive w hpid halive,
      fun hle hdead => cleanup_dead w hle hdead⟩
  · rw [if_neg hxs]
    exact ⟨rfl, fun hpid halive => cleanup_alive w hpid halive,
      fun hle hdead => cleanup_dead w hle hdead⟩

theorem claim_C8_witness :
    (xvfbAllocate ⟨100, 5, []⟩ ⟨true, some 7, true, KillRes.noProc⟩ true).spawned = true ∧
      ((some 7 : Option Nat) ≠ none → KillRes.noProc = KillRes.ok →
        (xvfbAllocate ⟨100, 5, []⟩ ⟨true, some 7, true, KillRes.noProc⟩
          true).worldAtSpawn = ⟨true, some 7, true, KillRes.noProc⟩) ∧
      (true = true → ((some 7 : Option Nat) = none ∨ KillRes.noProc ≠ KillRes.ok) →
        (xvfbAllocate ⟨100, 5, []⟩ ⟨true, some 7, true, KillRes.noProc⟩
            true).worldAtSpawn.lockExists = false ∧
          (xvfbAllocate ⟨100, 5, []⟩ ⟨true, some 7, true, KillRes.noProc⟩
            true).worldAtSpawn.socketExists = false) :=
  claim_C8 ⟨100, 5, []⟩ ⟨true, some 7, true, KillRes.noProc⟩ true 100
    (by decide) (by decide)

/-- C10: a subscriber that joined with an empty GOP snapshot
(`gop_has_idr = false`) and has not yet dequeued an IDR forwards only SPS
and PPS units — at most one of each — and drops every unit of any other
type (non-IDR slices, SEI, AUD, filler, ...). -/
theorem claim_C10 (s : GopState) (hidr : s.gop_has_idr = false)
    (pre rest : List (List Nat))
    (hpre : ∀ u ∈ pre, nalType u ≠ 5 ∧ u ≠ []) :
    ∃ preOut sS2 sP2,
      subscribeYields s (pre ++ rest) =
        preOut ++ deliverLoop s.last_sps s.last_pps false sS2 sP2 rest ∧
      (∀ u ∈ preOut, nalType u = 7 ∨ nalType u = 8) ∧
      preOut.countP (fun u => nalType u = 7) ≤ 1 ∧
      preOut.countP (fun u => nalType u = 8) ≤ 1 := by
  obtain ⟨preOut, sS2, sP2, heq, hmem, hc7, hc8⟩ :=
    deliverLoop_filter s.last_sps s.last_pps pre false false hpre rest
  refine ⟨preOut, sS2, sP2, ?_, hmem, ?_, ?_⟩
  · rw [subscribeYields, hidr]
    simp only [Bool.false_eq_true, if_false, List.nil_append]
    exact heq
  · simpa using hc7
  · simpa using hc8

theorem claim_C10_witness :
    (∀ u ∈ ([[0, 0, 0, 1, 103], [0, 0, 0, 1, 105]] : List (List Nat)),
      nalType u ≠ 5 ∧ u ≠ []) ∧
    ∃ preOut sS2 sP2,
      subscribeYields ⟨[], [], [], 0, false⟩
          ([[0, 0, 0, 1, 103], [0, 0, 0, 1, 105]] ++ []) =
        preOut ++ deliverLoop [] [] false sS2 sP2 [] ∧
      (∀ u ∈ preOut, nalType u = 7 ∨ nalType u = 8) ∧
      preOut.countP (fun u => nalType u = 7) ≤ 1 ∧
      preOut.countP (fun u => nalType u = 8) ≤ 1 :=
  ⟨by decide, claim_C10 ⟨[], [], [], 0, false⟩ rfl
    [[0, 0, 0, 1, 103], [0, 0, 0, 1, 105]] [] (by decide)⟩
